import Mathlib

/-!
Verification of the rich-text sanitizer (src/js/sanitizer.js).

Strings are modelled as `List Char` (Unicode scalar values).  Every regex
rewrite of the source is embedded as a structurally recursive scanner that
mirrors the JavaScript global-replace semantics: scan left to right, at each
position try the (deterministic, greedy) pattern, replace the leftmost match
and resume immediately after the replaced span, never rescanning replacement
text.
-/

namespace Sanitizer

/-- JavaScript regex whitespace class: the characters matched by the regex
escape used throughout the source (tab, LF, VT, FF, CR, space, NBSP,
line/paragraph separators, the Unicode Zs block and the BOM). -/
def isJsWs (c : Char) : Bool :=
  c.val == 0x0009 || c.val == 0x000A || c.val == 0x000B || c.val == 0x000C ||
  c.val == 0x000D || c.val == 0x0020 || c.val == 0x00A0 || c.val == 0x1680 ||
  (0x2000 <= c.val && c.val <= 0x200A) || c.val == 0x2028 || c.val == 0x2029 ||
  c.val == 0x202F || c.val == 0x205F || c.val == 0x3000 || c.val == 0xFEFF

/-- The zero-width set deleted by `sanitizeTextContent` when `removeZeroWidth`
is on: ZWSP, ZWNJ, ZWJ, BOM (regex class u200B u200C u200D uFEFF). -/
def isZeroWidthChar (c : Char) : Bool :=
  c.val == 0x200B || c.val == 0x200C || c.val == 0x200D || c.val == 0xFEFF

/-- The bidi controls deleted by `sanitizeTextContent` when `removeBidi` is
on: the ranges u202A-u202E and u2066-u2069 (LRM/RLM are NOT included). -/
def isBidiFilterChar (c : Char) : Bool :=
  (0x202A ≤ c.val && c.val ≤ 0x202E) || (0x2066 ≤ c.val && c.val ≤ 0x2069)

/-- The bidi set flagged by the highlight overlay: the two filter ranges plus
LRM (u200E) and RLM (u200F). -/
def isBidiHighlightChar (c : Char) : Bool :=
  isBidiFilterChar c || c.val == 0x200E || c.val == 0x200F

/-- NBSP-like characters replaced by a space when `normalizeSpaces` is on:
u00A0 and u202F. -/
def isNbspLike (c : Char) : Bool :=
  c.val == 0x00A0 || c.val == 0x202F

/-- The dash-like characters unconditionally normalized to an ASCII hyphen
(regex class u2010 u2011 u2012 u2013 u2015 u2212 uFE63 uFF0D u30FC u2043
u2E3A u2E3B). -/
def isDashLike (c : Char) : Bool :=
  c.val == 0x2010 || c.val == 0x2011 || c.val == 0x2012 || c.val == 0x2013 ||
  c.val == 0x2015 || c.val == 0x2212 || c.val == 0xFE63 || c.val == 0xFF0D ||
  c.val == 0x30FC || c.val == 0x2043 || c.val == 0x2E3A || c.val == 0x2E3B

/-- Regex word character (the class behind a word boundary): A-Z, a-z, 0-9
and underscore. -/
def isWordChar (c : Char) : Bool :=
  ('a' ≤ c && c ≤ 'z') || ('A' ≤ c && c ≤ 'Z') || ('0' ≤ c && c ≤ '9') ||
  c == '_'

/-- Does the list start with zero or more whitespace characters followed by an
em dash?  This is exactly the condition under which the leading
whitespace-star of the em-dash pattern can reach an em dash. -/
def wsThenDash : List Char → Bool
  | [] => false
  | c :: rest => c.val == 0x2014 || (isJsWs c && wsThenDash rest)

/-- Global replace of the em-dash pattern (whitespace-star, em dash,
whitespace-star) by the two characters semicolon-space.  The Boolean state
records whether we are inside the trailing whitespace of a replaced match
(which the greedy trailing whitespace-star consumes). -/
def emGo : Bool → List Char → List Char
  | _, [] => []
  | skip, c :: rest =>
    if skip && isJsWs c then emGo true rest
    else if c.val == 0x2014 then ';' :: ' ' :: emGo true rest
    else if isJsWs c && wsThenDash rest then emGo false rest
    else c :: emGo false rest

/-- Is the head of the list a non-whitespace character (or the list empty)? -/
def headNotWs : List Char → Bool
  | [] => true
  | c :: _ => !isJsWs c

/-- Global replace of semicolon-followed-by-whitespace-plus with
semicolon-space.  The Boolean state records whether we are consuming the
(greedy) whitespace run of a match already replaced. -/
def semiGo : Bool → List Char → List Char
  | _, [] => []
  | skip, c :: rest =>
    if skip && isJsWs c then semiGo true rest
    else if c == ';' && !headNotWs rest then ';' :: ' ' :: semiGo true rest
    else c :: semiGo false rest

/-- Output invariant established by `semiGo`: every semicolon followed by a
whitespace character is followed by exactly one space and then a
non-whitespace character (or the end). -/
def semiGood : List Char → Bool
  | [] => true
  | c :: rest =>
    (if c == ';' then
      match rest with
      | [] => true
      | d :: rest2 => if isJsWs d then d == ' ' && headNotWs rest2 else true
     else true) && semiGood rest

/-- One abbreviation rule: a fixed-length pattern (one set of admissible
characters per position, which encodes the per-rule case handling) and its
replacement text. -/
structure Abbrev where
  pat : List (List Char)
  repl : List Char

/-- Does the text start with the given fixed-length pattern? -/
def matchesPat : List (List Char) → List Char → Bool
  | [], _ => true
  | _ :: _, [] => false
  | cls :: ps, c :: rest => cls.contains c && matchesPat ps rest

/-- The six Latin-abbreviation rules, in source order, with their case
handling: the first two match a case class only on the leading letter, the
last four are fully case-insensitive. -/
def LATIN_ABBREVIATIONS : List Abbrev :=
  [ ⟨[['e', 'E'], ['.'], ['g'], ['.']], "for example".toList⟩,
    ⟨[['i', 'I'], ['.'], ['e'], ['.']], "that is".toList⟩,
    ⟨[['e', 'E'], ['t', 'T'], ['c', 'C'], ['.']], "and so on".toList⟩,
    ⟨[['v', 'V'], ['s', 'S'], ['.']], "versus".toList⟩,
    ⟨[['c', 'C'], ['f', 'F'], ['.']], "compare".toList⟩,
    ⟨[['e', 'E'], ['t', 'T'], [' '], ['a', 'A'], ['l', 'L'], ['.']],
      "and others".toList⟩ ]

/-- Global replace for one abbreviation rule.  `prevW` records whether the
previous character of the original text is a word character (the word
boundary of the pattern requires it not to be); `skip` counts characters of a
replaced match still to consume.  The replacement is emitted when the match
is found and is never rescanned; scanning resumes after the match with the
boundary state taken from the last consumed character. -/
def abbrevGo (a : Abbrev) : Bool → Nat → List Char → List Char
  | _, _, [] => []
  | _, k + 1, c :: rest => abbrevGo a (isWordChar c) k rest
  | prevW, 0, c :: rest =>
    if !prevW && matchesPat a.pat (c :: rest) then
      a.repl ++ abbrevGo a (isWordChar c) (a.pat.length - 1) rest
    else c :: abbrevGo a (isWordChar c) 0 rest

/-- Apply one abbreviation rule to a whole text (boundary holds at the start
of the string). -/
def applyAbbrev (a : Abbrev) (s : List Char) : List Char :=
  abbrevGo a false 0 s

/-- Apply the six abbreviation rules in source order. -/
def expandAbbrevs (s : List Char) : List Char :=
  LATIN_ABBREVIATIONS.foldl (fun t a => applyAbbrev a t) s

/-- The NBSP normalization applied per character when normalizeSpaces is
on. -/
def spaceFix (c : Char) : Char := if isNbspLike c then ' ' else c

/-- The dash normalization applied per character (unconditional). -/
def dashFix (c : Char) : Char := if isDashLike c then '-' else c

/-- The option set read from the five checkboxes. -/
structure Options where
  removeZeroWidth : Bool
  removeBidi : Bool
  normalizeSpaces : Bool
  collapseBlankLines : Bool
  expandLatinAbbrev : Bool

/-- The three flag-gated character steps of the pipeline: zero-width
deletion, bidi-control deletion, NBSP normalization, in source order. -/
def preFilter (s : List Char) (o : Options) : List Char :=
  let s1 := if o.removeZeroWidth then s.filter (fun c => !isZeroWidthChar c) else s
  let s2 := if o.removeBidi then s1.filter (fun c => !isBidiFilterChar c) else s1
  if o.normalizeSpaces then s2.map spaceFix else s2

/-- The unconditional rewrites of the pipeline: em-dash replacement,
semicolon spacing, dash normalization, in source order. -/
def corePipeline (x : List Char) : List Char :=
  (semiGo false (emGo false x)).map dashFix

/-- `sanitizeTextContent(text, opts)` from its initial NFC step onwards: the
flag-gated filters followed by the unconditional rewrites, acting on the
text the NFC step produces.  The full pipeline including the runtime
normalization call is `sanitizeTextContentFull` further below. -/
def sanitizeTextContent (s : List Char) (o : Options) : List Char :=
  if o.expandLatinAbbrev then expandAbbrevs (corePipeline (preFilter s o))
  else corePipeline (preFilter s o)

example :
    sanitizeTextContent "A — B".toList ⟨false, false, false, false, false⟩
      = "A; B".toList := by decide

example :
    sanitizeTextContent "e.g. foo".toList ⟨false, false, false, false, true⟩
      = "for example foo".toList := by decide

example :
    sanitizeTextContent ";  x; y ——z".toList
      ⟨false, false, false, false, false⟩ = "; x; y; ; z".toList := by decide

/-! ### Structural Cleaner (the string rewrites of sanitizeHtmlPreservingFormatting) -/

/-- Global replace of CRLF by LF. -/
def crlfGo : List Char → List Char
  | '\r' :: '\n' :: rest => '\n' :: crlfGo rest
  | c :: rest => c :: crlfGo rest
  | [] => []

/-- Global replace of runs of three or more LF by exactly two, with the
Boolean state consuming the remainder of a collapsed (greedy) run. -/
def nlGo : Bool → List Char → List Char
  | true, '\n' :: rest => nlGo true rest
  | _, '\n' :: '\n' :: '\n' :: rest => '\n' :: '\n' :: nlGo true rest
  | _, c :: rest => c :: nlGo false rest
  | _, [] => []

/-- The collapseBlankLines step: CRLF to LF, CR to LF, then collapse runs of
three or more LF to two. -/
def blankLineClean (s : List Char) : List Char :=
  nlGo false ((crlfGo s).map (fun c => if c == '\r' then '\n' else c))

/-- Does the list start with zero or more whitespace characters followed by
an opening angle bracket? -/
def wsThenLt : List Char → Bool
  | [] => false
  | c :: rest => c == '<' || (isJsWs c && wsThenLt rest)

/-- Does the list start with one or more whitespace characters followed by an
opening angle bracket? -/
def wsPlusLt : List Char → Bool
  | [] => false
  | c :: rest => isJsWs c && wsThenLt rest

/-- Global replace of close-bracket, whitespace-plus, open-bracket by the two
brackets; the Boolean state walks the whitespace of a match up to its
open bracket. -/
def tagWsGo : Bool → List Char → List Char
  | _, [] => []
  | true, c :: rest => if c == '<' then '<' :: tagWsGo false rest else tagWsGo true rest
  | false, c :: rest =>
    if c == '>' && wsPlusLt rest then '>' :: tagWsGo true rest
    else c :: tagWsGo false rest

/-- One line-break unit of the br-run pattern: a br tag (case-insensitive,
optional whitespace and self-closing slash) followed by trailing whitespace.
Returns the remainder after the unit. -/
def brUnit : List Char → Option (List Char)
  | '<' :: b :: r :: rest =>
    if (b == 'b' || b == 'B') && (r == 'r' || r == 'R') then
      match List.dropWhile isJsWs rest with
      | '/' :: '>' :: rest2 => some (List.dropWhile isJsWs rest2)
      | '>' :: rest2 => some (List.dropWhile isJsWs rest2)
      | _ => none
    else none
  | _ => none

/-- Total length of the maximal run of br units starting here.  The fuel is
only a structural-recursion bound; each unit consumes at least four
characters, so fuel equal to the list length is always enough. -/
def brLen : Nat → List Char → Nat
  | 0, _ => 0
  | fuel + 1, s =>
    match brUnit s with
    | some r => (s.length - r.length) + brLen fuel r
    | none => 0

/-- Global replace of a run of two or more br units by a single br tag; the
counter state skips the characters of a replaced run. -/
def brGo : Nat → List Char → List Char
  | k + 1, _ :: rest => brGo k rest
  | _, [] => []
  | 0, c :: rest =>
    if ((brUnit (c :: rest)).bind brUnit).isSome then
      '<' :: 'b' :: 'r' :: '>' :: brGo (brLen (c :: rest).length (c :: rest) - 1) rest
    else c :: brGo 0 rest

/-- Does the list start with the literal paragraph-break-paragraph pattern
(case-insensitive)? -/
def isPBrP : List Char → Bool
  | '<' :: p1 :: '>' :: '<' :: b :: r :: '>' :: '<' :: '/' :: p2 :: '>' :: _ =>
    (p1 == 'p' || p1 == 'P') && (b == 'b' || b == 'B') && (r == 'r' || r == 'R') &&
    (p2 == 'p' || p2 == 'P')
  | _ => false

/-- Global replace of the eleven-character paragraph-break-paragraph literal
by an empty paragraph; the counter state skips the matched characters. -/
def pbrGo : Nat → List Char → List Char
  | k + 1, _ :: rest => pbrGo k rest
  | _, [] => []
  | 0, c :: rest =>
    if isPBrP (c :: rest) then
      '<' :: 'p' :: '>' :: '<' :: '/' :: 'p' :: '>' :: pbrGo 10 rest
    else c :: pbrGo 0 rest

/-- Length of whitespace-star followed by a closing paragraph tag
(case-insensitive), when the list starts with that pattern. -/
def closePLen : List Char → Option Nat
  | '<' :: '/' :: p :: '>' :: _ => if p == 'p' || p == 'P' then some 4 else none
  | c :: rest => if isJsWs c then (closePLen rest).map (fun n => n + 1) else none
  | [] => none

/-- Length of one empty-paragraph unit: open paragraph tag, whitespace-star,
closing paragraph tag (case-insensitive). -/
def emptyParaLen : List Char → Option Nat
  | '<' :: p :: '>' :: rest =>
    if p == 'p' || p == 'P' then (closePLen rest).map (fun n => n + 3) else none
  | _ => none

/-- Global delete of every empty-paragraph unit; the counter state skips the
matched characters (nothing is emitted for a match). -/
def delPGo : Nat → List Char → List Char
  | k + 1, _ :: rest => delPGo k rest
  | _, [] => []
  | 0, c :: rest =>
    match emptyParaLen (c :: rest) with
    | some n => delPGo (n - 1) rest
    | none => c :: delPGo 0 rest

/-- Total length of the maximal run of empty-paragraph units starting here;
fueled like brLen (each unit consumes at least seven characters). -/
def ppLen : Nat → List Char → Nat
  | 0, _ => 0
  | fuel + 1, s =>
    match emptyParaLen s with
    | some n => n + ppLen fuel (s.drop n)
    | none => 0

/-- Global replace of a run of two or more empty-paragraph units by a single
empty paragraph; the counter state skips the replaced run. -/
def ppGo : Nat → List Char → List Char
  | k + 1, _ :: rest => ppGo k rest
  | _, [] => []
  | 0, c :: rest =>
    match (emptyParaLen (c :: rest)).bind (fun n => emptyParaLen ((c :: rest).drop n)) with
    | some _ =>
      '<' :: 'p' :: '>' :: '<' :: '/' :: 'p' :: '>' ::
        ppGo (ppLen (c :: rest).length (c :: rest) - 1) rest
    | none => c :: ppGo 0 rest

/-- The Structural Cleaner: the six ordered string rewrites applied to the
serialized markup (blank-line collapse when enabled, inter-tag whitespace
removal, br-run collapse, paragraph-break rewrite, empty-paragraph deletion,
empty-paragraph-run collapse). -/
def cleanMarkup (collapse : Bool) (s : List Char) : List Char :=
  let s1 := if collapse then blankLineClean s else s
  let s2 := tagWsGo false s1
  let s3 := brGo 0 s2
  let s4 := pbrGo 0 s3
  let s5 := delPGo 0 s4
  ppGo 0 s5

example : cleanMarkup true "<p>hi</p><p><br></p><p></p>".toList = "<p>hi</p>".toList := by
  decide

example : cleanMarkup true "<p><p></p><br></p>".toList = "<p><br></p>".toList := by
  decide

example : cleanMarkup true "<p><br></p>".toList = [] := by decide

example : brGo 0 "a<br><BR/>  <br >x".toList = "a<br>x".toList := by decide

example : tagWsGo false "<p>a</p>  <p>b</p>".toList = "<p>a</p><p>b</p>".toList := by decide

example : blankLineClean "a\r\n\n\n\rb".toList = "a\n\nb".toList := by decide

/-! ### Document tree, highlight overlay and allowlist filter -/

/-- A document tree node: an element (tag, attribute list, children) or a
text node. -/
inductive DomNode where
  | element (tag : String) (attrs : List (String × String)) (children : List DomNode)
  | text (s : List Char)

mutual
/-- Concatenated text content of a node. -/
def textContentN : DomNode → List Char
  | .text s => s
  | .element _ _ cs => textContentAux cs
termination_by structural n => n
/-- Concatenated text content of a node list, in document order. -/
def textContentAux : List DomNode → List Char
  | [] => []
  | n :: ns => textContentN n ++ textContentAux ns
termination_by structural l => l
end

/-- Is this character in the fast-skip set of the highlight walk (the
suspicious-character test applied to a whole text node)? -/
def isSuspicious (c : Char) : Bool :=
  isZeroWidthChar c || isBidiHighlightChar c || isNbspLike c || c.val == 0x2014

/-- The highlight-marker class name. -/
def markerClass : String := "highlight-invisible"

/-- The em-dash marker label built character by character (it contains quote
characters). -/
def emDashLabel : String :=
  String.mk ['E', 'M', ' ', 'D', 'A', 'S', 'H', ' ', Char.ofNat 0x2014, ' ',
    '(', 'w', 'i', 'l', 'l', ' ', 'b', 'e', 'c', 'o', 'm', 'e', ' ',
    Char.ofNat 0x27, ';', ' ', Char.ofNat 0x27, ' ', ')']

/-- The per-character classification of the highlight walk, in source order:
gated zero-width, gated bidi (including LRM and RLM), gated NBSP-like,
unconditional em dash, then the non-ASCII fallback; `none` means the
character is left as plain text. -/
def classifyChar (o : Options) (c : Char) : Option String :=
  if o.removeZeroWidth && isZeroWidthChar c then some "Zero-width character"
  else if o.removeBidi && isBidiHighlightChar c then some "BiDi / Direction marker"
  else if o.normalizeSpaces && isNbspLike c then some "Non-breaking space"
  else if c.val == 0x2014 then some emDashLabel
  else if 127 < c.val then some "Non-ASCII character"
  else none

/-- The marker span wrapping one flagged character. -/
def markerSpan (label : String) (c : Char) : DomNode :=
  .element "span" [("class", markerClass), ("title", label)] [.text [c]]

/-- The replacement fragment for one scanned character. -/
def markChar (o : Options) (c : Char) : DomNode :=
  match classifyChar o c with
  | some label => markerSpan label c
  | none => .text [c]

/-- One text node after the highlight walk: kept whole when it contains no
suspicious character, otherwise split into one node per character. -/
def markText (o : Options) (s : List Char) : List DomNode :=
  if s.any isSuspicious then s.map (markChar o) else [.text s]

mutual
/-- The highlight walk over a node (text nodes may be replaced by a
fragment, hence a list results). -/
def markN (o : Options) : DomNode → List DomNode
  | .text s => markText o s
  | .element t a cs => [.element t a (markAux o cs)]
termination_by structural n => n
/-- The highlight walk over the children of a node. -/
def markAux (o : Options) : List DomNode → List DomNode
  | [] => []
  | n :: ns => markN o n ++ markAux o ns
termination_by structural l => l
end

/-- ASCII whitespace used to split a class attribute into tokens. -/
def isClassSep (c : Char) : Bool :=
  c == ' ' || c == '\t' || c == '\n' || c.val == 0x000C || c == '\r'

/-- Split a character list into its whitespace-separated tokens (the first
argument accumulates the current token in reverse). -/
def classTokens (acc : List Char) : List Char → List (List Char)
  | [] => [acc.reverse]
  | c :: rest =>
    if isClassSep c then acc.reverse :: classTokens [] rest
    else classTokens (c :: acc) rest

/-- Does the attribute list carry the marker class (a class attribute whose
whitespace-separated tokens contain highlight-invisible)? -/
def hasMarkerClass (attrs : List (String × String)) : Bool :=
  attrs.any (fun p => p.1 == "class" && (classTokens [] p.2.toList).contains markerClass.toList)

mutual
/-- clearHighlightsInEditor on one node: a marker element is replaced by a
text node carrying its text content; other elements keep their tag and
attributes and are cleared recursively. -/
def clearN : DomNode → DomNode
  | .text s => .text s
  | .element t a cs =>
    if hasMarkerClass a then .text (textContentAux cs)
    else .element t a (clearAux cs)
termination_by structural n => n
/-- clearHighlightsInEditor on a node list. -/
def clearAux : List DomNode → List DomNode
  | [] => []
  | n :: ns => clearN n :: clearAux ns
termination_by structural l => l
end

/-- highlightProblemCharsInEditor: clear previous markers, then run the
highlight walk. -/
def highlightProblemChars (o : Options) (ns : List DomNode) : List DomNode :=
  markAux o (clearAux ns)

mutual
/-- The titles of the marker spans of a tree, in document order. -/
def markerTitlesN : DomNode → List String
  | .text _ => []
  | .element _ a cs =>
    (if hasMarkerClass a then (a.filter (fun p => p.1 == "title")).map (fun p => p.2)
     else []) ++ markerTitlesAux cs
termination_by structural n => n
/-- The titles of the marker spans of a node list. -/
def markerTitlesAux : List DomNode → List String
  | [] => []
  | n :: ns => markerTitlesN n ++ markerTitlesAux ns
termination_by structural l => l
end

/-- The DOMPurify tag allowlist of the final pass. -/
def ALLOWED_TAGS : List String :=
  ["p", "br", "div", "span", "b", "strong", "i", "em", "u", "ul", "ol", "li"]

/-- The DOMPurify attribute allowlist of the final pass. -/
def ALLOWED_ATTR : List String := ["class"]

mutual
/-- Modelled from the spec: the Allowlist Filter (section 4.4), realized in
the source by a DOMPurify call whose code is not part of this repository.
Per the spec it retains only allowlisted tags and the class attribute,
silently dropping everything else while preserving textual content, so a
disallowed element is replaced by its (filtered) children. -/
def restrictN : DomNode → List DomNode
  | .text s => [.text s]
  | .element t a cs =>
    if t ∈ ALLOWED_TAGS then
      [.element t (a.filter (fun p => p.1 ∈ ALLOWED_ATTR)) (restrictAux cs)]
    else restrictAux cs
termination_by structural n => n
/-- The Allowlist Filter applied to a node list. -/
def restrictAux : List DomNode → List DomNode
  | [] => []
  | n :: ns => restrictN n ++ restrictAux ns
termination_by structural l => l
end

mutual
/-- Are all element tags of the tree in the allowlist? -/
def tagsAllowedN : DomNode → Bool
  | .text _ => true
  | .element t _ cs => decide (t ∈ ALLOWED_TAGS) && tagsAllowedAux cs
termination_by structural n => n
/-- Are all element tags of a node list in the allowlist? -/
def tagsAllowedAux : List DomNode → Bool
  | [] => true
  | n :: ns => tagsAllowedN n && tagsAllowedAux ns
termination_by structural l => l
end

mutual
/-- Are all attribute names of the tree in the attribute allowlist? -/
def attrsAllowedN : DomNode → Bool
  | .text _ => true
  | .element _ a cs => a.all (fun p => decide (p.1 ∈ ALLOWED_ATTR)) && attrsAllowedAux cs
termination_by structural n => n
/-- Are all attribute names of a node list in the attribute allowlist? -/
def attrsAllowedAux : List DomNode → Bool
  | [] => true
  | n :: ns => attrsAllowedN n && attrsAllowedAux ns
termination_by structural l => l
end

example :
    restrictAux [.element "script" [("onclick", "evil()")] [.text "alert(1)".toList],
      .element "p" [("class", "x"), ("style", "s")] [.text "hi".toList]]
      = [.text "alert(1)".toList, .element "p" [("class", "x")] [.text "hi".toList]] := by
  rfl

example :
    markerTitlesAux (highlightProblemChars ⟨false, false, false, false, false⟩
      [.element "p" [] [.text [Char.ofNat 0x200B]]]) = ["Non-ASCII character"] := by
  rfl

example :
    markerTitlesAux (highlightProblemChars ⟨true, false, false, false, false⟩
      [.element "p" [] [.text [Char.ofNat 0x200B]]]) = ["Zero-width character"] := by
  rfl

example :
    textContentAux (clearAux (highlightProblemChars ⟨true, true, true, true, true⟩
      [.element "p" [] [.text ("a".toList ++ [Char.ofNat 0x200B, Char.ofNat 0x2014] ++ "b".toList)]]))
      = "a".toList ++ [Char.ofNat 0x200B, Char.ofNat 0x2014] ++ "b".toList := by
  rfl

/-! ### Claim theorems -/

/-- C5 counterexample: on the markup of the claim, with collapseBlankLines
enabled, the Structural Cleaner does NOT return the claimed output with one
surviving empty paragraph. -/
theorem C5_counterexample :
    cleanMarkup true "<p>hi</p><p><br></p><p></p>".toList
      ≠ "<p>hi</p><p></p>".toList := by
  decide

/-- C5 (amended): with collapseBlankLines enabled, the Structural Cleaner
maps the markup of the claim to exactly the single paragraph hi: the
paragraph containing only a line break is first rewritten to an empty
paragraph, and the empty-paragraph deletion rule then removes every empty
paragraph, so none survives and the run-collapse rule finds nothing. -/
theorem C5_cleaner_scenario :
    cleanMarkup true "<p>hi</p><p><br></p><p></p>".toList = "<p>hi</p>".toList := by
  decide

/-- C9: with expandLatinAbbrev enabled (and any values of the other four
flags), the normalizer applies the fixed ordered whole-token replacement
list with the per-rule case handling of the source (only the leading letter
of e.g. and i.e. is case-insensitive, the other four rules are fully
case-insensitive, and a word boundary must precede a match); in particular
e.g. foo becomes for example foo.  With the flag disabled no abbreviation is
replaced. -/
theorem C9_latin_abbreviations :
    ∀ a b c d : Bool,
      sanitizeTextContent "e.g. foo".toList ⟨a, b, c, d, true⟩ = "for example foo".toList ∧
      sanitizeTextContent "i.e. foo".toList ⟨a, b, c, d, true⟩ = "that is foo".toList ∧
      sanitizeTextContent "etc. foo".toList ⟨a, b, c, d, true⟩ = "and so on foo".toList ∧
      sanitizeTextContent "vs. foo".toList ⟨a, b, c, d, true⟩ = "versus foo".toList ∧
      sanitizeTextContent "cf. foo".toList ⟨a, b, c, d, true⟩ = "compare foo".toList ∧
      sanitizeTextContent "et al. foo".toList ⟨a, b, c, d, true⟩ = "and others foo".toList ∧
      sanitizeTextContent "E.g. foo".toList ⟨a, b, c, d, true⟩ = "for example foo".toList ∧
      sanitizeTextContent "eTc. foo".toList ⟨a, b, c, d, true⟩ = "and so on foo".toList ∧
      sanitizeTextContent "E.G. foo".toList ⟨a, b, c, d, true⟩ = "E.G. foo".toList ∧
      sanitizeTextContent "Xe.g. foo".toList ⟨a, b, c, d, true⟩ = "Xe.g. foo".toList ∧
      sanitizeTextContent "e.g. foo".toList ⟨a, b, c, d, false⟩ = "e.g. foo".toList ∧
      sanitizeTextContent "et al. foo".toList ⟨a, b, c, d, false⟩ = "et al. foo".toList := by
  decide

/-- Text content distributes over list append. -/
theorem textContentAux_append (a b : List DomNode) :
    textContentAux (a ++ b) = textContentAux a ++ textContentAux b := by
  induction a with
  | nil => rfl
  | cons n ns ih => simp [textContentAux, ih]

mutual
/-- Clearing markers never changes the text content of a node. -/
theorem textContent_clearN : ∀ n : DomNode, textContentN (clearN n) = textContentN n
  | .text s => rfl
  | .element t a cs => by
    by_cases h : hasMarkerClass a = true
    · simp [clearN, h, textContentN]
    · simp [clearN, h, textContentN, textContent_clearAux cs]
termination_by structural n => n
/-- Clearing markers never changes the text content of a node list. -/
theorem textContent_clearAux : ∀ l : List DomNode, textContentAux (clearAux l) = textContentAux l
  | [] => rfl
  | n :: ns => by
    simp [clearAux, textContentAux, textContent_clearN n, textContent_clearAux ns]
termination_by structural l => l
end

/-- A one-character replacement fragment carries exactly that character. -/
theorem textContent_markChar (o : Options) (c : Char) :
    textContentN (markChar o c) = [c] := by
  unfold markChar
  cases classifyChar o c <;> simp [markerSpan, textContentN, textContentAux]

/-- Splitting a text into per-character fragments preserves its content. -/
theorem textContent_map_markChar (o : Options) (s : List Char) :
    textContentAux (s.map (markChar o)) = s := by
  induction s with
  | nil => rfl
  | cons c cs ih => simp [textContentAux, textContent_markChar, ih]

/-- The highlight walk preserves the content of a text node. -/
theorem textContent_markText (o : Options) (s : List Char) :
    textContentAux (markText o s) = s := by
  unfold markText
  split
  · exact textContent_map_markChar o s
  · simp [textContentAux, textContentN]

mutual
/-- The highlight walk preserves the text content of a node. -/
theorem textContent_markN : ∀ (o : Options) (n : DomNode),
    textContentAux (markN o n) = textContentN n
  | o, .text s => textContent_markText o s
  | o, .element t a cs => by
    simp [markN, textContentAux, textContentN, textContent_markAux o cs]
termination_by structural o n => n
/-- The highlight walk preserves the text content of a node list. -/
theorem textContent_markAux : ∀ (o : Options) (l : List DomNode),
    textContentAux (markAux o l) = textContentAux l
  | _, [] => rfl
  | o, n :: ns => by
    simp [markAux, textContentAux_append, textContentAux,
      textContent_markN o n, textContent_markAux o ns]
termination_by structural o l => l
end

/-- C2: for every document tree and every option set, running the highlight
pass (which clears old markers and re-marks) and then clearing all markers
yields a tree whose concatenated text content is identical to the text
content before marking. -/
theorem C2_highlight_clear_roundtrip (o : Options) (ns : List DomNode) :
    textContentAux (clearAux (highlightProblemChars o ns)) = textContentAux ns := by
  unfold highlightProblemChars
  rw [textContent_clearAux, textContent_markAux, textContent_clearAux]

/-- Tag allowedness distributes over list append. -/
theorem tagsAllowedAux_append (a b : List DomNode) :
    tagsAllowedAux (a ++ b) = (tagsAllowedAux a && tagsAllowedAux b) := by
  induction a with
  | nil => rfl
  | cons n ns ih => simp [tagsAllowedAux, ih, Bool.and_assoc]

/-- Attribute allowedness distributes over list append. -/
theorem attrsAllowedAux_append (a b : List DomNode) :
    attrsAllowedAux (a ++ b) = (attrsAllowedAux a && attrsAllowedAux b) := by
  induction a with
  | nil => rfl
  | cons n ns ih => simp [attrsAllowedAux, ih, Bool.and_assoc]

mutual
/-- Every tag surviving the allowlist filter of a node is allowlisted. -/
theorem tags_restrictN : ∀ n : DomNode, tagsAllowedAux (restrictN n) = true
  | .text s => rfl
  | .element t a cs => by
    by_cases h : t ∈ ALLOWED_TAGS
    · simp [restrictN, h, tagsAllowedAux, tagsAllowedN, tags_restrictAux cs]
    · simp [restrictN, h, tags_restrictAux cs]
termination_by structural n => n
/-- Every tag surviving the allowlist filter of a node list is allowlisted. -/
theorem tags_restrictAux : ∀ l : List DomNode, tagsAllowedAux (restrictAux l) = true
  | [] => rfl
  | n :: ns => by
    simp [restrictAux, tagsAllowedAux_append, tags_restrictN n, tags_restrictAux ns]
termination_by structural l => l
end

mutual
/-- Every attribute surviving the allowlist filter of a node is allowlisted. -/
theorem attrs_restrictN : ∀ n : DomNode, attrsAllowedAux (restrictN n) = true
  | .text s => rfl
  | .element t a cs => by
    by_cases h : t ∈ ALLOWED_TAGS
    · simp [restrictN, h, attrsAllowedAux, attrsAllowedN, attrs_restrictAux cs,
        List.all_eq_true, List.mem_filter]
    · simp [restrictN, h, attrs_restrictAux cs]
termination_by structural n => n
/-- Every attribute surviving the allowlist filter of a list is allowlisted. -/
theorem attrs_restrictAux : ∀ l : List DomNode, attrsAllowedAux (restrictAux l) = true
  | [] => rfl
  | n :: ns => by
    simp [restrictAux, attrsAllowedAux_append, attrs_restrictN n, attrs_restrictAux ns]
termination_by structural l => l
end

mutual
/-- The allowlist filter preserves the text content of a node. -/
theorem textContent_restrictN : ∀ n : DomNode, textContentAux (restrictN n) = textContentN n
  | .text s => by simp [restrictN, textContentAux, textContentN]
  | .element t a cs => by
    by_cases h : t ∈ ALLOWED_TAGS
    · simp [restrictN, h, textContentAux, textContentN, textContent_restrictAux cs]
    · simp [restrictN, h, textContentN, textContent_restrictAux cs]
termination_by structural n => n
/-- The allowlist filter preserves the text content of a node list. -/
theorem textContent_restrictAux : ∀ l : List DomNode,
    textContentAux (restrictAux l) = textContentAux l
  | [] => rfl
  | n :: ns => by
    simp [restrictAux, textContentAux_append, textContentAux,
      textContent_restrictN n, textContent_restrictAux ns]
termination_by structural l => l
end

/-- C1: for every input tree, the allowlist restriction step leaves no tag
outside the fixed tag allowlist and no attribute other than class, and it
preserves the textual content of the input (a disallowed element, such as a
script tag or one carrying an event-handler attribute, is dropped while its
text is kept). -/
theorem C1_allowlist_filter (ns : List DomNode) :
    tagsAllowedAux (restrictAux ns) = true ∧
    attrsAllowedAux (restrictAux ns) = true ∧
    textContentAux (restrictAux ns) = textContentAux ns :=
  ⟨tags_restrictAux ns, attrs_restrictAux ns, textContent_restrictAux ns⟩

/-! ### Character classification (claim C8) -/

/-- The six classification outcomes of the highlight overlay. -/
inductive Classification where
  | clean
  | zeroWidth
  | bidiControl
  | nbspLike
  | emDash
  | nonAsciiOther
deriving DecidableEq

/-- The ordered list of specific classification rules, most specific first,
with only the enabled rules participating (the em-dash rule is always
enabled). -/
def specificRules (o : Options) : List ((Char → Bool) × Classification) :=
  (if o.removeZeroWidth then [(isZeroWidthChar, Classification.zeroWidth)] else []) ++
  (if o.removeBidi then [(isBidiHighlightChar, Classification.bidiControl)] else []) ++
  (if o.normalizeSpaces then [(isNbspLike, Classification.nbspLike)] else []) ++
  [(fun c => c.val == 0x2014, Classification.emDash)]

/-- First-match classification over the ordered enabled rules, with the
non-ASCII fallback firing only when no specific enabled rule matched. -/
def classOf (o : Options) (c : Char) : Classification :=
  match (specificRules o).find? (fun r => r.1 c) with
  | some r => r.2
  | none => if 127 < c.val then Classification.nonAsciiOther else Classification.clean

/-- The marker label attached to each classification (none for clean). -/
def labelOfClass : Classification → Option String
  | .clean => none
  | .zeroWidth => some "Zero-width character"
  | .bidiControl => some "BiDi / Direction marker"
  | .nbspLike => some "Non-breaking space"
  | .emDash => some emDashLabel
  | .nonAsciiOther => some "Non-ASCII character"

/-- C8: for every option set and every character, the classification chain
of the highlight walk computes exactly the first-match classification over
the ordered list of enabled specific rules (zero-width, bidi-control,
nbsp-like, em-dash, in that priority order), with the non-ASCII fallback
firing only when no specific enabled rule matched; every character therefore
receives exactly one of the six classes. -/
theorem C8_classification_priority (o : Options) (c : Char) :
    classifyChar o c = labelOfClass (classOf o c) := by
  rcases o with ⟨z, b, n, cb, ea⟩
  cases z <;> cases b <;> cases n <;>
    simp only [classifyChar, classOf, specificRules, List.nil_append, List.cons_append,
      List.find?, Bool.false_and, Bool.true_and, Bool.false_eq_true, if_false, if_true] <;>
    cases hz : isZeroWidthChar c <;> cases hb : isBidiHighlightChar c <;>
    cases hn : isNbspLike c <;> cases he : (c.val == 0x2014) <;>
    simp [hz, hb, hn, he, labelOfClass] <;>
    split <;> simp [labelOfClass]

/-! ### Membership lemmas: what characters each stage can emit -/

/-- Characters of the em-dash rewrite output come from the input or from the
inserted semicolon-space. -/
theorem mem_emGo {c : Char} : ∀ {skip : Bool} {s : List Char},
    c ∈ emGo skip s → c ∈ s ∨ c = ';' ∨ c = ' ' := by
  intro skip s
  induction s generalizing skip with
  | nil => simp [emGo]
  | cons d rest ih =>
    simp only [emGo]
    split
    · intro h
      rcases ih h with h1 | h1
      · exact Or.inl (List.mem_cons_of_mem _ h1)
      · exact Or.inr h1
    split
    · intro h
      rcases List.mem_cons.mp h with h1 | h1
      · exact Or.inr (Or.inl h1)
      rcases List.mem_cons.mp h1 with h2 | h2
      · exact Or.inr (Or.inr h2)
      rcases ih h2 with h3 | h3
      · exact Or.inl (List.mem_cons_of_mem _ h3)
      · exact Or.inr h3
    split
    · intro h
      rcases ih h with h1 | h1
      · exact Or.inl (List.mem_cons_of_mem _ h1)
      · exact Or.inr h1
    · intro h
      rcases List.mem_cons.mp h with h1 | h1
      · exact Or.inl (h1 ▸ List.mem_cons_self _ _)
      rcases ih h1 with h2 | h2
      · exact Or.inl (List.mem_cons_of_mem _ h2)
      · exact Or.inr h2

/-- Characters of the semicolon rewrite output come from the input or from
the inserted semicolon-space. -/
theorem mem_semiGo {c : Char} : ∀ {skip : Bool} {s : List Char},
    c ∈ semiGo skip s → c ∈ s ∨ c = ';' ∨ c = ' ' := by
  intro skip s
  induction s generalizing skip with
  | nil => simp [semiGo]
  | cons d rest ih =>
    simp only [semiGo]
    split
    · intro h
      rcases ih h with h1 | h1
      · exact Or.inl (List.mem_cons_of_mem _ h1)
      · exact Or.inr h1
    split
    · intro h
      rcases List.mem_cons.mp h with h1 | h1
      · exact Or.inr (Or.inl h1)
      rcases List.mem_cons.mp h1 with h2 | h2
      · exact Or.inr (Or.inr h2)
      rcases ih h2 with h3 | h3
      · exact Or.inl (List.mem_cons_of_mem _ h3)
      · exact Or.inr h3
    · intro h
      rcases List.mem_cons.mp h with h1 | h1
      · exact Or.inl (h1 ▸ List.mem_cons_self _ _)
      rcases ih h1 with h2 | h2
      · exact Or.inl (List.mem_cons_of_mem _ h2)
      · exact Or.inr h2

/-- Characters of one abbreviation pass come from the input or from the
replacement text. -/
theorem mem_abbrevGo {c : Char} (a : Abbrev) : ∀ {p : Bool} {k : Nat} {s : List Char},
    c ∈ abbrevGo a p k s → c ∈ s ∨ c ∈ a.repl := by
  intro p k s
  induction s generalizing p k with
  | nil => simp [abbrevGo]
  | cons d rest ih =>
    match k with
    | k + 1 =>
      intro h
      simp only [abbrevGo] at h
      rcases ih h with h1 | h1
      · exact Or.inl (List.mem_cons_of_mem _ h1)
      · exact Or.inr h1
    | 0 =>
      simp only [abbrevGo]
      split
      · intro h
        rcases List.mem_append.mp h with h1 | h1
        · exact Or.inr h1
        rcases ih h1 with h2 | h2
        · exact Or.inl (List.mem_cons_of_mem _ h2)
        · exact Or.inr h2
      · intro h
        rcases List.mem_cons.mp h with h1 | h1
        · exact Or.inl (h1 ▸ List.mem_cons_self _ _)
        rcases ih h1 with h2 | h2
        · exact Or.inl (List.mem_cons_of_mem _ h2)
        · exact Or.inr h2

/-- Characters of the abbreviation stage come from the input or from one of
the replacement texts. -/
theorem mem_expandAbbrevs {c : Char} : ∀ {l : List Abbrev} {s : List Char},
    c ∈ l.foldl (fun t a => applyAbbrev a t) s → c ∈ s ∨ ∃ a ∈ l, c ∈ a.repl := by
  intro l
  induction l with
  | nil => intro s h; exact Or.inl h
  | cons a la ih =>
    intro s h
    simp only [List.foldl_cons] at h
    rcases ih h with h1 | h1
    · rcases mem_abbrevGo a h1 with h2 | h2
      · exact Or.inl h2
      · exact Or.inr ⟨a, List.mem_cons_self _ _, h2⟩
    · rcases h1 with ⟨b, hb, hc⟩
      exact Or.inr ⟨b, List.mem_cons_of_mem _ hb, hc⟩

/-! ### The semicolon-spacing invariant -/

/-- semiGood is preserved by dropping the head. -/
theorem semiGood_tail {c : Char} {l : List Char} (h : semiGood (c :: l) = true) :
    semiGood l = true := by
  simp only [semiGood, Bool.and_eq_true] at h
  exact h.2

/-- semiGood ignores a non-semicolon head. -/
theorem semiGood_cons_of_ne {c : Char} (l : List Char) (hc : (c == ';') = false) :
    semiGood (c :: l) = semiGood l := by
  simp [semiGood, hc]

/-- semiGood is preserved by drop. -/
theorem semiGood_drop {l : List Char} (h : semiGood l = true) : ∀ k : Nat,
    semiGood (List.drop k l) = true := by
  intro k
  induction k generalizing l with
  | zero => exact h
  | succ k ih =>
    cases l with
    | nil => exact h
    | cons c rest => exact ih (semiGood_tail h)

/-- Prepending semicolon-free text preserves semiGood. -/
theorem semiGood_append {xs ys : List Char} (hx : ∀ x ∈ xs, x ≠ ';')
    (hy : semiGood ys = true) : semiGood (xs ++ ys) = true := by
  induction xs with
  | nil => simpa using hy
  | cons c rest ih =>
    have hc : (c == ';') = false := by
      simpa using hx c (List.mem_cons_self c rest)
    rw [List.cons_append, semiGood_cons_of_ne _ hc]
    exact ih fun x hxm => hx x (List.mem_cons_of_mem _ hxm)

/-- The semicolon rewrite keeps the first character in place when it starts
from the scanning state. -/
theorem semiGo_false_cons (d : Char) (rest : List Char) :
    ∃ u, semiGo false (d :: rest) = d :: u := by
  have hu : semiGo false (d :: rest) =
      if (d == ';' && !headNotWs rest) = true then ';' :: ' ' :: semiGo true rest
      else d :: semiGo false rest := by
    simp [semiGo]
  by_cases h : (d == ';' && !headNotWs rest) = true
  · have hd : d = ';' := beq_iff_eq.mp (Bool.and_eq_true _ _ ▸ h).1
    exact ⟨' ' :: semiGo true rest, by rw [hu, if_pos h, hd]⟩
  · exact ⟨semiGo false rest, by rw [hu, if_neg h]⟩

/-- In the whitespace-consuming state the semicolon rewrite never emits a
leading whitespace character. -/
theorem semiGo_true_headNotWs : ∀ s : List Char, headNotWs (semiGo true s) = true := by
  intro s
  induction s with
  | nil => rfl
  | cons d rest ih =>
    by_cases hd : isJsWs d = true
    · have : semiGo true (d :: rest) = semiGo true rest := by simp [semiGo, hd]
      rw [this]
      exact ih
    · have hd2 : isJsWs d = false := by simpa using hd
      by_cases h : (d == ';' && !headNotWs rest) = true
      · have hds : d = ';' := beq_iff_eq.mp (Bool.and_eq_true _ _ ▸ h).1
        subst hds
        have hses : isJsWs ';' = false := by decide
        have hrest : headNotWs rest = false := by simpa [hses] using h
        have : semiGo true (';' :: rest) = ';' :: ' ' :: semiGo true rest := by
          simp [semiGo, hses, hrest]
        rw [this]
        rfl
      · have : semiGo true (d :: rest) = d :: semiGo false rest := by
          simp [semiGo, hd2, h]
        rw [this]
        simp [headNotWs, hd2]

/-- Unfolding of semiGood at a semicolon head. -/
theorem semiGood_semi_cons (d : Char) (r2 : List Char) :
    semiGood (';' :: d :: r2) =
      ((if isJsWs d then d == ' ' && headNotWs r2 else true) && semiGood (d :: r2)) := rfl

/-- The semicolon rewrite always produces a semiGood list. -/
theorem semiGood_semiGo : ∀ (s : List Char) (skip : Bool), semiGood (semiGo skip s) = true := by
  intro s
  induction s with
  | nil => intro _; rfl
  | cons d rest ih =>
    intro skip
    by_cases hskip : (skip && isJsWs d) = true
    · have heq : semiGo skip (d :: rest) = semiGo true rest := by simp [semiGo, hskip]
      rw [heq]
      exact ih true
    · by_cases h : (d == ';' && !headNotWs rest) = true
      · have hd : d = ';' := beq_iff_eq.mp (Bool.and_eq_true _ _ ▸ h).1
        subst hd
        have hses : isJsWs ';' = false := by decide
        have hrest : headNotWs rest = false := by simpa [hses] using h
        have heq : semiGo skip (';' :: rest) = ';' :: ' ' :: semiGo true rest := by
          simp [semiGo, hses, hrest]
        rw [heq, semiGood_semi_cons]
        have hX := semiGo_true_headNotWs rest
        have hsp : isJsWs ' ' = true := by decide
        rw [semiGood_cons_of_ne _ (by decide : ((' ' : Char) == ';') = false)]
        simp [hsp, hX, ih true]
      · have heq : semiGo skip (d :: rest) = d :: semiGo false rest := by
          simp [semiGo, hskip, h]
        rw [heq]
        by_cases hd : d = ';'
        · subst hd
          have hrest : headNotWs rest = true := by
            by_contra hcon
            apply h
            simp [Bool.and_eq_true]
            simpa using hcon
          cases rest with
          | nil => decide
          | cons e r2 =>
            have he : isJsWs e = false := by simpa [headNotWs] using hrest
            obtain ⟨u, hu⟩ := semiGo_false_cons e r2
            rw [hu, semiGood_semi_cons]
            have hgu := ih false
            rw [hu] at hgu
            simp [he, hgu]
        · have hdb : (d == ';') = false := by simpa using hd
          rw [semiGood_cons_of_ne _ hdb]
          exact ih false

/-- Skipping whitespace is a no-op when the head is not whitespace. -/
theorem semiGo_true_of_headNotWs : ∀ {s : List Char}, headNotWs s = true →
    semiGo true s = semiGo false s := by
  intro s h
  cases s with
  | nil => rfl
  | cons c rest =>
    have hc : isJsWs c = false := by simpa [headNotWs] using h
    simp [semiGo, hc]

/-- What semiGood says about a semicolon followed by whitespace. -/
theorem semiGood_semi_ws {d : Char} {r2 : List Char} (h : semiGood (';' :: d :: r2) = true)
    (hd : isJsWs d = true) : d = ' ' ∧ headNotWs r2 = true := by
  rw [semiGood_semi_cons] at h
  simp [hd] at h
  exact ⟨h.1.1, h.1.2⟩

/-- On a semiGood list the semicolon rewrite is the identity (length-bounded
induction). -/
theorem semiGo_id_aux : ∀ (n : Nat) (s : List Char), s.length ≤ n → semiGood s = true →
    semiGo false s = s := by
  intro n
  induction n with
  | zero =>
    intro s hs _
    cases s with
    | nil => rfl
    | cons c rest => simp at hs
  | succ n ih =>
    intro s hs hgood
    cases s with
    | nil => rfl
    | cons c rest =>
      by_cases hc : c = ';'
      · subst hc
        cases rest with
        | nil => decide
        | cons d r2 =>
          by_cases hd : isJsWs d = true
          · obtain ⟨hd2, hr2⟩ := semiGood_semi_ws hgood hd
            subst hd2
            have hsp : isJsWs ' ' = true := by decide
            have e1 : semiGo false (';' :: ' ' :: r2) = ';' :: ' ' :: semiGo true (' ' :: r2) := by
              simp [semiGo, headNotWs, hsp]
            have e2 : semiGo true (' ' :: r2) = semiGo true r2 := by simp [semiGo, hsp]
            have hlen : r2.length ≤ n := by simp at hs; omega
            rw [e1, e2, semiGo_true_of_headNotWs hr2,
              ih r2 hlen (semiGood_tail (semiGood_tail hgood))]
          · have hd2 : isJsWs d = false := by simpa using hd
            have e1 : semiGo false (';' :: d :: r2) = ';' :: semiGo false (d :: r2) := by
              simp [semiGo, headNotWs, hd2]
            have hlen : (d :: r2).length ≤ n := by simp at hs ⊢; omega
            rw [e1, ih (d :: r2) hlen (semiGood_tail hgood)]
      · have hcb : (c == ';') = false := by simpa using hc
        have e1 : semiGo false (c :: rest) = c :: semiGo false rest := by
          simp [semiGo, hcb]
        have hlen : rest.length ≤ n := by simp at hs; omega
        rw [e1, ih rest hlen (semiGood_tail hgood)]

/-- On a semiGood list the semicolon rewrite is the identity. -/
theorem semiGo_id {s : List Char} (h : semiGood s = true) : semiGo false s = s :=
  semiGo_id_aux s.length s le_rfl h

/-! ### Em-dash rewrite lemmas -/

/-- The em dash character. -/
def emDashChar : Char := Char.ofNat 0x2014

/-- A character with the em-dash codepoint is the em dash. -/
theorem eq_emDashChar_of_val {c : Char} (h : (c.val == 0x2014) = true) : c = emDashChar := by
  have hv : c.val = 0x2014 := beq_iff_eq.mp h
  have : c.val = emDashChar.val := by rw [hv]; rfl
  exact Char.eq_of_val_eq this

/-- If leading whitespace reaches an em dash, the list contains one. -/
theorem wsThenDash_mem : ∀ {s : List Char}, wsThenDash s = true → emDashChar ∈ s := by
  intro s
  induction s with
  | nil => simp [wsThenDash]
  | cons c rest ih =>
    intro h
    rcases Bool.or_eq_true _ _ ▸ h with h1 | h1
    · exact (eq_emDashChar_of_val h1) ▸ List.mem_cons_self _ _
    · exact List.mem_cons_of_mem _ (ih (Bool.and_eq_true _ _ ▸ h1).2)

/-- The em-dash rewrite removes every em dash. -/
theorem emGo_no_dash : ∀ (skip : Bool) (s : List Char), emDashChar ∉ emGo skip s := by
  intro skip s
  induction s generalizing skip with
  | nil => simp [emGo]
  | cons c rest ih =>
    by_cases h1 : (skip && isJsWs c) = true
    · have e : emGo skip (c :: rest) = emGo true rest := by simp [emGo, h1]
      rw [e]; exact ih true
    · by_cases h2 : (c.val == 0x2014) = true
      · have e : emGo skip (c :: rest) = ';' :: ' ' :: emGo true rest := by simp [emGo, h1, h2]
        rw [e]
        intro hmem
        rcases List.mem_cons.mp hmem with h | h
        · exact absurd h (by decide)
        rcases List.mem_cons.mp h with h | h
        · exact absurd h (by decide)
        · exact ih true h
      · by_cases h3 : (isJsWs c && wsThenDash rest) = true
        · have e : emGo skip (c :: rest) = emGo false rest := by simp [emGo, h1, h2, h3]
          rw [e]; exact ih false
        · have e : emGo skip (c :: rest) = c :: emGo false rest := by simp [emGo, h1, h2, h3]
          rw [e]
          intro hmem
          rcases List.mem_cons.mp hmem with h | h
          · exact h2 (by rw [← h]; rfl)
          · exact ih false h

/-- Without an em dash, leading whitespace never reaches one. -/
theorem wsThenDash_false (s : List Char) (h : emDashChar ∉ s) : wsThenDash s = false := by
  cases hw : wsThenDash s
  · rfl
  · exact absurd (wsThenDash_mem hw) h

/-- On em-dash-free text the em-dash rewrite is the identity. -/
theorem emGo_id : ∀ (s : List Char), emDashChar ∉ s → emGo false s = s := by
  intro s
  induction s with
  | nil => intro _; rfl
  | cons c rest ih =>
    intro h
    have hc : emDashChar ≠ c := fun he => h (he ▸ List.mem_cons_self _ _)
    have hrest : emDashChar ∉ rest := fun hm => h (List.mem_cons_of_mem _ hm)
    have h2 : (c.val == 0x2014) = false := by
      cases hval : (c.val == 0x2014)
      · rfl
      · exact absurd (eq_emDashChar_of_val hval).symm hc
    have h3 : wsThenDash rest = false := wsThenDash_false rest hrest
    have e : emGo false (c :: rest) = c :: emGo false rest := by simp [emGo, h2, h3]
    rw [e, ih hrest]

/-! ### The abbreviation stage preserves the semicolon invariant -/

/-- Consuming the skip counter just drops characters. -/
theorem abbrevGo_skip (a : Abbrev) : ∀ (k : Nat) (p : Bool) (s : List Char),
    ∃ p2, abbrevGo a p k s = abbrevGo a p2 0 (s.drop k) := by
  intro k
  induction k with
  | zero => intro p s; exact ⟨p, by simp⟩
  | succ k ih =>
    intro p s
    cases s with
    | nil => exact ⟨p, by simp [abbrevGo]⟩
    | cons c rest =>
      obtain ⟨p2, hp2⟩ := ih (isWordChar c) rest
      exact ⟨p2, by simpa [abbrevGo] using hp2⟩

/-- The abbreviation pass keeps a non-whitespace first character (the
replacement starts with a letter). -/
theorem abbrevGo_headNotWs (a : Abbrev) (hrne : a.repl ≠ []) (hrh : headNotWs a.repl = true)
    (p : Bool) (s : List Char) (hs : headNotWs s = true) :
    headNotWs (abbrevGo a p 0 s) = true := by
  cases s with
  | nil => rfl
  | cons c rest =>
    by_cases h : (!p && matchesPat a.pat (c :: rest)) = true
    · have e : abbrevGo a p 0 (c :: rest) =
          a.repl ++ abbrevGo a (isWordChar c) (a.pat.length - 1) rest := by
        simp [abbrevGo, h]
      rw [e]
      cases hrepl : a.repl with
      | nil => exact absurd hrepl hrne
      | cons r0 rr =>
        have hh : headNotWs (r0 :: rr) = true := hrepl ▸ hrh
        simpa [headNotWs] using hh
    · have e : abbrevGo a p 0 (c :: rest) = c :: abbrevGo a (isWordChar c) 0 rest := by
        simp [abbrevGo, h]
      rw [e]
      simpa [headNotWs] using hs

/-- A semicolon may be prepended to a semiGood list that does not start with
whitespace. -/
theorem semiGood_cons_semi (l : List Char) (hh : headNotWs l = true) (hg : semiGood l = true) :
    semiGood (';' :: l) = true := by
  cases l with
  | nil => decide
  | cons x xs =>
    rw [semiGood_semi_cons]
    have hxw : isJsWs x = false := by simpa [headNotWs] using hh
    simp [hxw, hg]

/-- A whitespace character cannot start a pattern whose first position admits
no whitespace. -/
theorem matchesPat_ws_false (cls : List Char) (ps : List (List Char))
    (hcls : cls.all (fun x => !isJsWs x) = true) (c : Char) (rest : List Char)
    (hc : isJsWs c = true) : matchesPat (cls :: ps) (c :: rest) = false := by
  have hmem : c ∉ cls := by
    intro hm
    have := List.all_eq_true.mp hcls c hm
    simp [hc] at this
  simp only [matchesPat, Bool.and_eq_false_iff]
  left
  simpa using hmem

/-- One abbreviation pass preserves the semicolon-spacing invariant, given
that the replacement is nonempty, starts with a non-whitespace character and
contains no semicolon, and that the pattern cannot start with whitespace
(length-bounded induction). -/
theorem semiGood_abbrevGo_aux (a : Abbrev)
    (hrne : a.repl ≠ [])
    (hrh : headNotWs a.repl = true)
    (hrs : ∀ x ∈ a.repl, x ≠ ';')
    (hpat : ∀ (c : Char) (rest : List Char), isJsWs c = true →
      matchesPat a.pat (c :: rest) = false) :
    ∀ (n : Nat) (s : List Char), s.length ≤ n → semiGood s = true →
      ∀ p : Bool, semiGood (abbrevGo a p 0 s) = true := by
  intro n
  induction n with
  | zero =>
    intro s hs _ p
    cases s with
    | nil => rfl
    | cons c rest => simp at hs
  | succ n ih =>
    intro s hs hgood p
    cases s with
    | nil => rfl
    | cons c rest =>
      by_cases hm : (!p && matchesPat a.pat (c :: rest)) = true
      · have e : abbrevGo a p 0 (c :: rest) =
            a.repl ++ abbrevGo a (isWordChar c) (a.pat.length - 1) rest := by
          simp [abbrevGo, hm]
        rw [e]
        obtain ⟨p2, hskip⟩ := abbrevGo_skip a (a.pat.length - 1) (isWordChar c) rest
        rw [hskip]
        apply semiGood_append hrs
        apply ih _ ?_ (semiGood_drop (semiGood_tail hgood) _) p2
        have h1 : (rest.drop (a.pat.length - 1)).length ≤ rest.length := by
          rw [List.length_drop]; omega
        have h2 : rest.length ≤ n := by simp at hs; omega
        omega
      · have e : abbrevGo a p 0 (c :: rest) = c :: abbrevGo a (isWordChar c) 0 rest := by
          simp [abbrevGo, hm]
        rw [e]
        by_cases hc : c = ';'
        · subst hc
          have hw : isWordChar ';' = false := by decide
          rw [hw]
          cases rest with
          | nil =>
            have e2 : abbrevGo a false 0 ([] : List Char) = [] := by simp [abbrevGo]
            rw [e2]
            decide
          | cons d r2 =>
            by_cases hd : isJsWs d = true
            · obtain ⟨hd2, hr2⟩ := semiGood_semi_ws hgood hd
              subst hd2
              have hm2 : matchesPat a.pat (' ' :: r2) = false := hpat ' ' r2 (by decide)
              have e2 : abbrevGo a false 0 (' ' :: r2) =
                  ' ' :: abbrevGo a (isWordChar ' ') 0 r2 := by
                simp [abbrevGo, hm2]
              have hwsp : isWordChar ' ' = false := by decide
              rw [e2, hwsp, semiGood_semi_cons]
              have hxh : headNotWs (abbrevGo a false 0 r2) = true :=
                abbrevGo_headNotWs a hrne hrh false r2 hr2
              have hxg : semiGood (abbrevGo a false 0 r2) = true := by
                apply ih r2 ?_ (semiGood_tail (semiGood_tail hgood)) false
                simp at hs; omega
              have hsp : isJsWs ' ' = true := by decide
              rw [semiGood_cons_of_ne _ (by decide : ((' ' : Char) == ';') = false)]
              simp [hsp, hxh, hxg]
            · have hd2 : isJsWs d = false := by simpa using hd
              have hhead : headNotWs (d :: r2) = true := by simp [headNotWs, hd2]
              apply semiGood_cons_semi
              · exact abbrevGo_headNotWs a hrne hrh false (d :: r2) hhead
              · apply ih (d :: r2) ?_ (semiGood_tail hgood) false
                simp at hs ⊢; omega
        · have hcb : (c == ';') = false := by simpa using hc
          rw [semiGood_cons_of_ne _ hcb]
          apply ih rest ?_ (semiGood_tail hgood) (isWordChar c)
          simp at hs; omega

/-- Folding rule applications preserves any invariant each rule preserves. -/
theorem semiGood_foldl : ∀ (l : List Abbrev),
    (∀ a ∈ l, ∀ t : List Char, semiGood t = true → semiGood (applyAbbrev a t) = true) →
    ∀ s : List Char, semiGood s = true →
      semiGood (l.foldl (fun t a => applyAbbrev a t) s) = true := by
  intro l
  induction l with
  | nil => intro _ s h; exact h
  | cons a la ih =>
    intro hstep s h
    simp only [List.foldl_cons]
    exact ih (fun b hb => hstep b (List.mem_cons_of_mem _ hb)) _
      (hstep a (List.mem_cons_self _ _) s h)

/-- The whole abbreviation stage preserves the semicolon-spacing invariant. -/
theorem semiGood_expandAbbrevs {s : List Char} (h : semiGood s = true) :
    semiGood (expandAbbrevs s) = true := by
  apply semiGood_foldl LATIN_ABBREVIATIONS ?_ s h
  intro a ha t ht
  fin_cases ha <;>
    exact semiGood_abbrevGo_aux _ (by decide) (by decide) (by decide)
      (fun c rest hc => matchesPat_ws_false _ _ (by decide) c rest hc)
      t.length t le_rfl ht false

/-! ### Dash normalization preserves the semicolon invariant -/

/-- Char equality testing agrees with codepoint equality testing. -/
theorem char_beq_val (a b : Char) : (a == b) = (a.val == b.val) := by
  cases hab : a == b
  · cases hv : a.val == b.val
    · rfl
    · exact absurd (Char.eq_of_val_eq (beq_iff_eq.mp hv)) (by simpa using hab)
  · rw [beq_iff_eq.mp hab]
    simp

/-- dashFix does not change the three observations the semicolon invariant
makes about a character. -/
theorem dashFix_obs (c : Char) :
    ((dashFix c == ';') = (c == ';')) ∧ (isJsWs (dashFix c) = isJsWs c) ∧
    ((dashFix c == ' ') = (c == ' ')) := by
  by_cases h : isDashLike c = true
  · have hfix : dashFix c = '-' := by unfold dashFix; rw [if_pos h]
    rw [hfix]
    have h12 := h
    rw [isDashLike, Bool.or_eq_true, Bool.or_eq_true, Bool.or_eq_true, Bool.or_eq_true,
      Bool.or_eq_true, Bool.or_eq_true, Bool.or_eq_true, Bool.or_eq_true, Bool.or_eq_true,
      Bool.or_eq_true, Bool.or_eq_true] at h12
    rcases h12 with ((((((((((h1|h1)|h1)|h1)|h1)|h1)|h1)|h1)|h1)|h1)|h1)|h1 <;>
      refine ⟨?_, ?_, ?_⟩ <;> simp only [char_beq_val, isJsWs, beq_iff_eq.mp h1] <;> decide
  · have hfix : dashFix c = c := by unfold dashFix; rw [if_neg h]
    rw [hfix]
    exact ⟨rfl, rfl, rfl⟩

/-- dashFix preserves the head-not-whitespace observation. -/
theorem headNotWs_map_dashFix (l : List Char) : headNotWs (l.map dashFix) = headNotWs l := by
  cases l with
  | nil => rfl
  | cons c rest => simp [headNotWs, (dashFix_obs c).2.1]

/-- The dash normalization preserves the semicolon-spacing invariant. -/
theorem semiGood_map_dashFix : ∀ s : List Char, semiGood (s.map dashFix) = semiGood s := by
  intro s
  induction s with
  | nil => rfl
  | cons c rest ih =>
    simp only [List.map_cons, semiGood]
    rw [ih]
    congr 1
    rw [(dashFix_obs c).1]
    by_cases hc : (c == ';') = true
    · rw [if_pos hc, if_pos hc]
      cases rest with
      | nil => rfl
      | cons d r2 =>
        simp only [List.map_cons]
        rw [(dashFix_obs d).2.1]
        by_cases hd : isJsWs d = true
        · rw [if_pos hd, if_pos hd, (dashFix_obs d).2.2, headNotWs_map_dashFix]
        · rw [if_neg hd, if_neg hd]
    · rw [if_neg hc, if_neg hc]

/-! ### The output property of claim C3 -/

/-- No semicolon is followed by two whitespace characters. -/
def noSemiWsWs : List Char → Bool
  | [] => true
  | c :: rest =>
    (if c == ';' then
      match rest with
      | d :: e :: _ => !(isJsWs d && isJsWs e)
      | _ => true
     else true) && noSemiWsWs rest

/-- The semicolon-spacing invariant implies the claim property. -/
theorem noSemiWsWs_of_semiGood : ∀ {s : List Char}, semiGood s = true →
    noSemiWsWs s = true := by
  intro s
  induction s with
  | nil => intro _; rfl
  | cons c rest ih =>
    intro h
    have ht := semiGood_tail h
    simp only [noSemiWsWs, Bool.and_eq_true]
    refine ⟨?_, ih ht⟩
    by_cases hc : (c == ';') = true
    · have hcc := beq_iff_eq.mp hc
      subst hcc
      rw [if_pos hc]
      cases rest with
      | nil => rfl
      | cons d r2 =>
        cases r2 with
        | nil => rfl
        | cons e r3 =>
          by_cases hd : isJsWs d = true
          · obtain ⟨hd2, hr2⟩ := semiGood_semi_ws h hd
            have he : isJsWs e = false := by simpa [headNotWs] using hr2
            simp [he]
          · simp [(by simpa using hd : isJsWs d = false)]
    · rw [if_neg hc]

/-- No em dash survives the core rewrites followed by dash normalization. -/
theorem dash_not_mem_core (x : List Char) :
    emDashChar ∉ (semiGo false (emGo false x)).map dashFix := by
  intro h
  rcases List.mem_map.mp h with ⟨d, hd, hfix⟩
  have hdm : d = emDashChar := by
    by_cases hdash : isDashLike d = true
    · have hfd : dashFix d = '-' := by unfold dashFix; rw [if_pos hdash]
      rw [hfd] at hfix
      exact absurd hfix (by decide)
    · have hfd : dashFix d = d := by unfold dashFix; rw [if_neg hdash]
      rw [hfd] at hfix
      exact hfix
  subst hdm
  rcases mem_semiGo hd with h1 | h1 | h1
  · exact emGo_no_dash false x h1
  · exact absurd h1 (by decide)
  · exact absurd h1 (by decide)

/-- No em dash survives the full normalization pipeline. -/
theorem dash_not_mem_sanitize (s : List Char) (o : Options) :
    emDashChar ∉ sanitizeTextContent s o := by
  simp only [sanitizeTextContent, corePipeline]
  intro hmem
  split at hmem
  · rw [expandAbbrevs] at hmem
    rcases mem_expandAbbrevs hmem with h1 | h1
    · exact dash_not_mem_core _ h1
    · rcases h1 with ⟨aa, haa, hmem2⟩
      fin_cases haa <;> revert hmem2 <;> decide
  · exact dash_not_mem_core _ hmem

/-- The full normalization pipeline output satisfies the semicolon-spacing
invariant. -/
theorem semiGood_sanitize (s : List Char) (o : Options) :
    semiGood (sanitizeTextContent s o) = true := by
  simp only [sanitizeTextContent, corePipeline]
  split
  · apply semiGood_expandAbbrevs
    rw [semiGood_map_dashFix]
    exact semiGood_semiGo _ false
  · rw [semiGood_map_dashFix]
    exact semiGood_semiGo _ false

/-- C3: for every input text and every option set, the normalizer leaves no
em dash in its output (each em dash together with its surrounding whitespace
becomes semicolon-space), and no semicolon in the output is followed by more
than one whitespace character; in particular the input A-emdash-B with
surrounding spaces normalizes to exactly A; B for every option set. -/
theorem C3_em_dash_semicolon :
    (∀ (s : List Char) (o : Options),
      (sanitizeTextContent s o).contains emDashChar = false) ∧
    (∀ (s : List Char) (o : Options), noSemiWsWs (sanitizeTextContent s o) = true) ∧
    (∀ a b c d e : Bool,
      sanitizeTextContent ("A ".toList ++ emDashChar :: " B".toList) ⟨a, b, c, d, e⟩
        = "A; B".toList) := by
  refine ⟨?_, ?_, ?_⟩
  · intro s o
    simpa using dash_not_mem_sanitize s o
  · intro s o
    exact noSemiWsWs_of_semiGood (semiGood_sanitize s o)
  · decide

/-! ### Predicate propagation through the pipeline stages -/

/-- A character property that fails on semicolon, space and hyphen and holds
for no character of the input fails on every character of the core
rewrites. -/
theorem corePipeline_pred (q : Char → Bool)
    (hq1 : q ';' = false) (hq2 : q ' ' = false) (hq3 : q '-' = false)
    (x : List Char) (hx : ∀ c ∈ x, q c = false) :
    ∀ c ∈ corePipeline x, q c = false := by
  intro c hc
  rcases List.mem_map.mp hc with ⟨d, hd, hfix⟩
  rcases mem_semiGo hd with h1 | h1 | h1
  · rcases mem_emGo h1 with h2 | h2 | h2
    · subst hfix
      unfold dashFix
      split
      · exact hq3
      · exact hx d h2
    · subst hfix h2
      simpa [dashFix] using hq1
    · subst hfix h2
      simpa [dashFix] using hq2
  · subst hfix h1
    simpa [dashFix] using hq1
  · subst hfix h1
    simpa [dashFix] using hq2

/-- A character property failing on every replacement character and on every
input character fails on every character after abbreviation expansion. -/
theorem expandAbbrevs_pred (q : Char → Bool)
    (hq4 : ∀ aa ∈ LATIN_ABBREVIATIONS, ∀ x ∈ aa.repl, q x = false)
    (y : List Char) (hy : ∀ c ∈ y, q c = false) :
    ∀ c ∈ expandAbbrevs y, q c = false := by
  intro c hc
  rw [expandAbbrevs] at hc
  rcases mem_expandAbbrevs hc with h1 | h1
  · exact hy c h1
  · rcases h1 with ⟨aa, haa, hmem⟩
    exact hq4 aa haa c hmem

/-- A character property that fails on the inserted characters, on the
replacement texts and on every character surviving the flag-gated filters
fails on every output character of the pipeline. -/
theorem sanitize_pred (q : Char → Bool)
    (hq1 : q ';' = false) (hq2 : q ' ' = false) (hq3 : q '-' = false)
    (hq4 : ∀ aa ∈ LATIN_ABBREVIATIONS, ∀ x ∈ aa.repl, q x = false)
    (s : List Char) (o : Options) (hpre : ∀ c ∈ preFilter s o, q c = false) :
    ∀ c ∈ sanitizeTextContent s o, q c = false := by
  intro c hc
  simp only [sanitizeTextContent] at hc
  split at hc
  · exact expandAbbrevs_pred q hq4 _ (corePipeline_pred q hq1 hq2 hq3 _ hpre) c hc
  · exact corePipeline_pred q hq1 hq2 hq3 _ hpre c hc

/-- With removeZeroWidth on, no zero-width character survives the gated
filters. -/
theorem preFilter_no_zw (s : List Char) (o : Options) (hz : o.removeZeroWidth = true) :
    ∀ c ∈ preFilter s o, isZeroWidthChar c = false := by
  intro c hc
  simp only [preFilter, hz, if_true] at hc
  have key : ∀ c ∈ (s.filter (fun c => !isZeroWidthChar c)), isZeroWidthChar c = false := by
    intro d hd
    simpa using (List.mem_filter.mp hd).2
  split at hc
  · rcases List.mem_map.mp hc with ⟨d, hd, hfix⟩
    have hdq : isZeroWidthChar d = false := by
      split at hd
      · exact key d (List.mem_filter.mp hd).1
      · exact key d hd
    subst hfix
    unfold spaceFix
    split
    · decide
    · exact hdq
  · split at hc
    · exact key c (List.mem_filter.mp hc).1
    · exact key c hc

/-- With removeBidi on, no bidi-control character of the deletion ranges
survives the gated filters. -/
theorem preFilter_no_bidi (s : List Char) (o : Options) (hb : o.removeBidi = true) :
    ∀ c ∈ preFilter s o, isBidiFilterChar c = false := by
  intro c hc
  simp only [preFilter, hb, if_true] at hc
  have key : ∀ (t : List Char) (d : Char), d ∈ t.filter (fun c => !isBidiFilterChar c) →
      isBidiFilterChar d = false := by
    intro t d hd
    simpa using (List.mem_filter.mp hd).2
  split at hc
  · rcases List.mem_map.mp hc with ⟨d, hd, hfix⟩
    have hdq : isBidiFilterChar d = false := key _ d hd
    subst hfix
    unfold spaceFix
    split
    · decide
    · exact hdq
  · exact key _ c hc

/-- With normalizeSpaces on, no NBSP-like character survives the gated
filters. -/
theorem preFilter_no_nbsp (s : List Char) (o : Options) (hn : o.normalizeSpaces = true) :
    ∀ c ∈ preFilter s o, isNbspLike c = false := by
  intro c hc
  simp only [preFilter, hn, if_true] at hc
  rcases List.mem_map.mp hc with ⟨d, hd, hfix⟩
  subst hfix
  unfold spaceFix
  split
  · decide
  · rename_i h
    simpa using h

/-- No dash-like character survives the pipeline (the dash normalization is
its last unconditional stage and the replacements contain none). -/
theorem sanitize_no_dashLike (s : List Char) (o : Options) :
    ∀ c ∈ sanitizeTextContent s o, isDashLike c = false := by
  have hcore : ∀ x : List Char, ∀ c ∈ corePipeline x, isDashLike c = false := by
    intro x c hc
    rcases List.mem_map.mp hc with ⟨d, hd, hfix⟩
    subst hfix
    unfold dashFix
    split
    · decide
    · rename_i h
      simpa using h
  intro c hc
  simp only [sanitizeTextContent] at hc
  split at hc
  · exact expandAbbrevs_pred isDashLike (by decide) _ (hcore _) c hc
  · exact hcore _ c hc

/-! ### Identity of the stages on already-normalized text -/

/-- Mapping a function that fixes every element is the identity. -/
theorem map_id_of_eq {f : Char → Char} : ∀ l : List Char, (∀ c ∈ l, f c = c) →
    l.map f = l := by
  intro l
  induction l with
  | nil => intro _; rfl
  | cons c rest ih =>
    intro h
    simp only [List.map_cons]
    rw [h c (List.mem_cons_self _ _), ih fun d hd => h d (List.mem_cons_of_mem _ hd)]

/-- The gated filters are the identity when each enabled filter finds
nothing. -/
theorem preFilter_id (t : List Char) (o : Options)
    (hzw : o.removeZeroWidth = true → ∀ c ∈ t, isZeroWidthChar c = false)
    (hbd : o.removeBidi = true → ∀ c ∈ t, isBidiFilterChar c = false)
    (hsp : o.normalizeSpaces = true → ∀ c ∈ t, isNbspLike c = false) :
    preFilter t o = t := by
  have h1 : (if o.removeZeroWidth then t.filter (fun c => !isZeroWidthChar c) else t) = t := by
    cases hz : o.removeZeroWidth
    · simp
    · simp only [if_true]
      apply List.filter_eq_self.mpr
      intro c hc
      simpa using hzw hz c hc
  have h2 : (if o.removeBidi then t.filter (fun c => !isBidiFilterChar c) else t) = t := by
    cases hb : o.removeBidi
    · simp
    · simp only [if_true]
      apply List.filter_eq_self.mpr
      intro c hc
      simpa using hbd hb c hc
  have h3 : (if o.normalizeSpaces then t.map spaceFix else t) = t := by
    cases hn : o.normalizeSpaces
    · simp
    · simp only [if_true]
      exact map_id_of_eq t fun c hc => by simp [spaceFix, hsp hn c hc]
  unfold preFilter
  simp only [h1, h2, h3]

/-- The unconditional rewrites are the identity on text with no em dash, no
dash-like character, and well-spaced semicolons. -/
theorem corePipeline_id (t : List Char) (hdash : emDashChar ∉ t) (hsg : semiGood t = true)
    (hdl : ∀ c ∈ t, isDashLike c = false) : corePipeline t = t := by
  unfold corePipeline
  rw [emGo_id t hdash, semiGo_id hsg]
  exact map_id_of_eq t fun c hc => by simp [dashFix, hdl c hc]

/-- C10 (amended): with the abbreviation rule disabled (the one rule whose
replacement text introduces fresh word characters), the normalizer from its
initial NFC step onwards is idempotent for every input text and every
setting of the other flags: the first pass leaves no zero-width,
bidi-control or NBSP-like character for an enabled filter, no em dash, no
dash-like character, and only well-spaced semicolons, so every stage of the
second pass is the identity.  The full normalizer including the NFC step is
not idempotent (see the C10 counterexample below): zero-width deletion can
expose a canonically composable pair that only the second pass's NFC step
rewrites. -/
theorem C10_normalize_idempotent (o : Options) (h : o.expandLatinAbbrev = false)
    (s : List Char) :
    sanitizeTextContent (sanitizeTextContent s o) o = sanitizeTextContent s o := by
  have hdash := dash_not_mem_sanitize s o
  have hsg := semiGood_sanitize s o
  have hdl := sanitize_no_dashLike s o
  have hzw : o.removeZeroWidth = true →
      ∀ c ∈ sanitizeTextContent s o, isZeroWidthChar c = false := fun hz =>
    sanitize_pred _ (by decide) (by decide) (by decide) (by decide) s o
      (preFilter_no_zw s o hz)
  have hbd : o.removeBidi = true →
      ∀ c ∈ sanitizeTextContent s o, isBidiFilterChar c = false := fun hb =>
    sanitize_pred _ (by decide) (by decide) (by decide) (by decide) s o
      (preFilter_no_bidi s o hb)
  have hsp : o.normalizeSpaces = true →
      ∀ c ∈ sanitizeTextContent s o, isNbspLike c = false := fun hn =>
    sanitize_pred _ (by decide) (by decide) (by decide) (by decide) s o
      (preFilter_no_nbsp s o hn)
  have e : sanitizeTextContent (sanitizeTextContent s o) o
      = corePipeline (preFilter (sanitizeTextContent s o) o) := by
    simp [sanitizeTextContent, h]
  rw [e, preFilter_id _ o hzw hbd hsp, corePipeline_id _ hdash hsg hdl]

/-- Witness for C10 at a concrete input and option set. -/
theorem C10_witness :
    sanitizeTextContent (sanitizeTextContent ("A ".toList ++ emDashChar :: " B".toList)
        ⟨false, false, false, false, false⟩) ⟨false, false, false, false, false⟩
      = sanitizeTextContent ("A ".toList ++ emDashChar :: " B".toList)
        ⟨false, false, false, false, false⟩ :=
  C10_normalize_idempotent ⟨false, false, false, false, false⟩ rfl _

/-- The left-to-right mark. -/
def lrmChar : Char := Char.ofNat 0x200E

/-- The right-to-left mark. -/
def rlmChar : Char := Char.ofNat 0x200F

/-- C7: with removeBidi enabled, LRM and RLM are classified as bidi-control
and flagged by the overlay, yet the normalizer leaves both unchanged; the
set of characters the overlay flags as bidi strictly contains the set the
normalizer deletes. -/
theorem C7_bidi_strict_superset :
    (∀ a b c d : Bool,
      sanitizeTextContent [lrmChar] ⟨a, true, b, c, d⟩ = [lrmChar] ∧
      sanitizeTextContent [rlmChar] ⟨a, true, b, c, d⟩ = [rlmChar] ∧
      classifyChar ⟨a, true, b, c, d⟩ lrmChar = some "BiDi / Direction marker" ∧
      classifyChar ⟨a, true, b, c, d⟩ rlmChar = some "BiDi / Direction marker") ∧
    (∀ ch : Char, isBidiFilterChar ch = true → isBidiHighlightChar ch = true) ∧
    isBidiHighlightChar lrmChar = true ∧
    isBidiFilterChar lrmChar = false := by
  refine ⟨by decide, ?_, by decide, by decide⟩
  intro ch h
  simp [isBidiHighlightChar, h]

/-- Witness for C7: a deleted bidi control is also flagged. -/
theorem C7_witness : isBidiHighlightChar (Char.ofNat 0x202A) = true :=
  C7_bidi_strict_superset.2.1 (Char.ofNat 0x202A) (by decide)

/-- The zero-width space. -/
def zwspChar : Char := Char.ofNat 0x200B

/-- C6 counterexample: with removeZeroWidth disabled, the overlay wraps a
zero-width space in a marker labeled Non-ASCII character, not Zero-width
character as the claim states. -/
theorem C6_counterexample :
    markerTitlesAux (highlightProblemChars ⟨false, false, false, false, false⟩
      [DomNode.text [zwspChar]]) = ["Non-ASCII character"] ∧
    ("Non-ASCII character" : String) ≠ "Zero-width character" :=
  ⟨rfl, by decide⟩

/-- C6 (amended): with removeZeroWidth enabled, the normalizer deletes every
zero-width space; the overlay labels it Zero-width character exactly when
the flag is enabled, and labels it Non-ASCII character (still wrapping it)
when the flag is disabled; clearing markers afterwards restores the original
character unchanged in either case. -/
theorem C6_zero_width :
    (∀ (s : List Char) (o : Options), o.removeZeroWidth = true →
      (sanitizeTextContent s o).contains zwspChar = false) ∧
    (∀ a b c d : Bool,
      classifyChar ⟨true, a, b, c, d⟩ zwspChar = some "Zero-width character") ∧
    (∀ a b c d : Bool,
      classifyChar ⟨false, a, b, c, d⟩ zwspChar = some "Non-ASCII character") ∧
    (∀ a b c d : Bool,
      markerTitlesAux (highlightProblemChars ⟨true, a, b, c, d⟩ [DomNode.text [zwspChar]])
        = ["Zero-width character"]) ∧
    (∀ o : Options,
      textContentAux (clearAux (highlightProblemChars o [DomNode.text [zwspChar]]))
        = [zwspChar]) := by
  refine ⟨?_, by decide, by decide, by decide, ?_⟩
  · intro s o hz
    cases hcon : (sanitizeTextContent s o).contains zwspChar
    · rfl
    · have hmem : zwspChar ∈ sanitizeTextContent s o := by simpa using hcon
      have hfalse := sanitize_pred isZeroWidthChar (by decide) (by decide) (by decide)
        (by decide) s o (preFilter_no_zw s o hz) zwspChar hmem
      have htrue : isZeroWidthChar zwspChar = true := by decide
      rw [htrue] at hfalse
      exact absurd hfalse (by decide)
  · intro o
    unfold highlightProblemChars
    rw [textContent_clearAux, textContent_markAux, textContent_clearAux]
    simp [textContentAux, textContentN]

/-- Witness for C6: the deletion part applied at a concrete input. -/
theorem C6_witness :
    (sanitizeTextContent [zwspChar] ⟨true, false, false, false, false⟩).contains zwspChar
      = false :=
  C6_zero_width.1 [zwspChar] ⟨true, false, false, false, false⟩ rfl

/-! ### Blank-line collapse: output shape and idempotence -/

/-- The first two output characters, tested for being line feeds. -/
def twoNl : List Char → Bool
  | d :: e :: _ => d == '\n' && e == '\n'
  | _ => false

/-- No three consecutive line feeds occur. -/
def noTriple : List Char → Bool
  | a :: b :: c :: rest => !(a == '\n' && b == '\n' && c == '\n') && noTriple (b :: c :: rest)
  | _ => true

/-- Is the head not a line feed (or the list empty)? -/
def headNotNl : List Char → Bool
  | [] => true
  | c :: _ => !(c == '\n')

/-- noTriple is preserved by dropping the head. -/
theorem noTriple_tail {c : Char} {l : List Char} (h : noTriple (c :: l) = true) :
    noTriple l = true := by
  cases l with
  | nil => rfl
  | cons d l2 =>
    cases l2 with
    | nil => rfl
    | cons e l3 => exact (Bool.and_eq_true _ _ ▸ h).2

/-- twoNl fails whenever the first character is not a line feed. -/
theorem twoNl_cons_false {d : Char} (hd : (d == '\n') = false) (l : List Char) :
    twoNl (d :: l) = false := by
  cases l <;> simp [twoNl, hd]

/-- A character may be prepended to a noTriple list when it does not complete
a triple. -/
theorem noTriple_cons_of {c : Char} {l : List Char} (h1 : noTriple l = true)
    (h2 : (c == '\n' && twoNl l) = false) : noTriple (c :: l) = true := by
  cases l with
  | nil => rfl
  | cons d l2 =>
    cases l2 with
    | nil => rfl
    | cons e l3 =>
      simp only [noTriple, Bool.and_eq_true]
      refine ⟨?_, h1⟩
      simp only [twoNl] at h2
      cases hc : c == '\n' <;> cases hd : d == '\n' <;> cases hee : e == '\n' <;>
        simp_all

/-- Two line feeds may be prepended to a noTriple list whose head is not a
line feed. -/
theorem noTriple_two_nl {l : List Char} (hh : headNotNl l = true) (h : noTriple l = true) :
    noTriple ('\n' :: '\n' :: l) = true := by
  have h1 : noTriple ('\n' :: l) = true := by
    apply noTriple_cons_of h
    cases l with
    | nil => rfl
    | cons d l2 =>
      have hd : (d == '\n') = false := by simpa [headNotNl] using hh
      cases l2 <;> simp [twoNl, hd]
  apply noTriple_cons_of h1
  cases l with
  | nil => simp [twoNl]
  | cons d l2 =>
    have hd : (d == '\n') = false := by simpa [headNotNl] using hh
    simp [twoNl, hd]

/-- In the run-consuming state the collapse never emits a leading line
feed. -/
theorem nlGo_true_headNotNl : ∀ s : List Char, headNotNl (nlGo true s) = true := by
  intro s
  induction s with
  | nil => rfl
  | cons c rest ih =>
    by_cases hc : c = '\n'
    · subst hc
      rw [show nlGo true ('\n' :: rest) = nlGo true rest from by simp [nlGo]]
      exact ih
    · rw [show nlGo true (c :: rest) = c :: nlGo false rest from by simp [nlGo, hc]]
      simpa [headNotNl] using hc

/-- The collapse output never contains three consecutive line feeds
(length-bounded induction). -/
theorem noTriple_nlGo : ∀ (n : Nat) (s : List Char), s.length ≤ n → ∀ skip : Bool,
    noTriple (nlGo skip s) = true := by
  intro n
  induction n with
  | zero =>
    intro s hs skip
    cases s with
    | nil => cases skip <;> rfl
    | cons c rest => simp at hs
  | succ n ih =>
    intro s hs skip
    cases skip
    · rcases s with _ | ⟨a, rest⟩
      · rfl
      by_cases ha : a = '\n'
      · subst ha
        rcases rest with _ | ⟨b, r2⟩
        · rw [show nlGo false ['\n'] = ['\n'] from by simp [nlGo]]
          rfl
        by_cases hb : b = '\n'
        · subst hb
          rcases r2 with _ | ⟨e, r3⟩
          · rw [show nlGo false ['\n', '\n'] = ['\n', '\n'] from by simp [nlGo]]
            rfl
          by_cases he : e = '\n'
          · subst he
            rw [show nlGo false ('\n' :: '\n' :: '\n' :: r3) = '\n' :: '\n' :: nlGo true r3
              from by simp [nlGo]]
            exact noTriple_two_nl (nlGo_true_headNotNl r3) (ih r3 (by simp at hs; omega) true)
          · rw [show nlGo false ('\n' :: '\n' :: e :: r3) = '\n' :: nlGo false ('\n' :: e :: r3)
              from by simp [nlGo, he]]
            rw [show nlGo false ('\n' :: e :: r3) = '\n' :: nlGo false (e :: r3)
              from by simp [nlGo, he]]
            rw [show nlGo false (e :: r3) = e :: nlGo false r3 from by simp [nlGo, he]]
            have heb : (e == '\n') = false := by simpa using he
            have hX := ih r3 (by simp at hs; omega) false
            have n1 : noTriple (e :: nlGo false r3) = true := by
              apply noTriple_cons_of hX
              simp [heb]
            have n2 : noTriple ('\n' :: e :: nlGo false r3) = true := by
              apply noTriple_cons_of n1
              simp [twoNl_cons_false heb]
            apply noTriple_cons_of n2
            simp [twoNl, heb]
        · rw [show nlGo false ('\n' :: b :: r2) = '\n' :: nlGo false (b :: r2)
            from by simp [nlGo, hb]]
          rw [show nlGo false (b :: r2) = b :: nlGo false r2 from by simp [nlGo, hb]]
          have hbb : (b == '\n') = false := by simpa using hb
          have hX := ih r2 (by simp at hs; omega) false
          have n1 : noTriple (b :: nlGo false r2) = true := by
            apply noTriple_cons_of hX
            simp [hbb]
          apply noTriple_cons_of n1
          simp [twoNl_cons_false hbb]
      · rw [show nlGo false (a :: rest) = a :: nlGo false rest from by simp [nlGo, ha]]
        apply noTriple_cons_of (ih rest (by simp at hs; omega) false)
        simp [(by simpa using ha : (a == '\n') = false)]
    · rcases s with _ | ⟨a, rest⟩
      · rfl
      by_cases ha : a = '\n'
      · subst ha
        rw [show nlGo true ('\n' :: rest) = nlGo true rest from by simp [nlGo]]
        exact ih rest (by simp at hs; omega) true
      · rw [show nlGo true (a :: rest) = a :: nlGo false rest from by simp [nlGo, ha]]
        apply noTriple_cons_of (ih rest (by simp at hs; omega) false)
        simp [(by simpa using ha : (a == '\n') = false)]

/-- On a noTriple list the collapse is the identity. -/
theorem nlGo_id : ∀ s : List Char, noTriple s = true → nlGo false s = s := by
  intro s
  induction s with
  | nil => intro _; rfl
  | cons c rest ih =>
    intro h
    by_cases hc : c = '\n'
    · subst hc
      rcases rest with _ | ⟨b, r2⟩
      · simp [nlGo]
      by_cases hb : b = '\n'
      · subst hb
        rcases r2 with _ | ⟨e, r3⟩
        · simp [nlGo]
        by_cases he : e = '\n'
        · exfalso
          subst he
          simp [noTriple] at h
        · rw [show nlGo false ('\n' :: '\n' :: e :: r3) = '\n' :: nlGo false ('\n' :: e :: r3)
            from by simp [nlGo, he]]
          rw [ih (noTriple_tail h)]
      · rw [show nlGo false ('\n' :: b :: r2) = '\n' :: nlGo false (b :: r2)
          from by simp [nlGo, hb]]
        rw [ih (noTriple_tail h)]
    · rw [show nlGo false (c :: rest) = c :: nlGo false rest from by simp [nlGo, hc]]
      rw [ih (noTriple_tail h)]

/-- On CR-free text the CRLF rewrite is the identity. -/
theorem crlfGo_id : ∀ s : List Char, '\r' ∉ s → crlfGo s = s := by
  intro s
  induction s with
  | nil => intro _; rfl
  | cons c rest ih =>
    intro h
    have hc : c ≠ '\r' := fun he => h (he ▸ List.mem_cons_self _ _)
    rw [show crlfGo (c :: rest) = c :: crlfGo rest from by simp [crlfGo, hc]]
    rw [ih fun hm => h (List.mem_cons_of_mem _ hm)]

/-- Characters of the CRLF rewrite output come from the input or are line
feeds (length-bounded induction). -/
theorem mem_crlfGo_aux : ∀ (n : Nat) (s : List Char), s.length ≤ n → ∀ {c : Char},
    c ∈ crlfGo s → c ∈ s ∨ c = '\n' := by
  intro n
  induction n with
  | zero =>
    intro s hs c hm
    cases s with
    | nil => simp [crlfGo] at hm
    | cons a rest => simp at hs
  | succ n ih =>
    intro s hs c hm
    rcases s with _ | ⟨a, _ | ⟨b, r⟩⟩
    · simp [crlfGo] at hm
    · by_cases ha : a = '\r'
      · subst ha
        rw [show crlfGo ['\r'] = ['\r'] from by simp [crlfGo]] at hm
        exact Or.inl hm
      · rw [show crlfGo [a] = [a] from by simp [crlfGo, ha]] at hm
        exact Or.inl hm
    · by_cases ha : a = '\r'
      · subst ha
        by_cases hb : b = '\n'
        · subst hb
          rw [show crlfGo ('\r' :: '\n' :: r) = '\n' :: crlfGo r from by simp [crlfGo]] at hm
          rcases List.mem_cons.mp hm with h1 | h1
          · exact Or.inr h1
          · rcases ih r (by simp at hs; omega) h1 with h2 | h2
            · exact Or.inl (List.mem_cons_of_mem _ (List.mem_cons_of_mem _ h2))
            · exact Or.inr h2
        · rw [show crlfGo ('\r' :: b :: r) = '\r' :: crlfGo (b :: r)
            from by simp [crlfGo, hb]] at hm
          rcases List.mem_cons.mp hm with h1 | h1
          · exact Or.inl (h1 ▸ List.mem_cons_self _ _)
          · rcases ih (b :: r) (by simp at hs ⊢; omega) h1 with h2 | h2
            · exact Or.inl (List.mem_cons_of_mem _ h2)
            · exact Or.inr h2
      · rw [show crlfGo (a :: b :: r) = a :: crlfGo (b :: r) from by simp [crlfGo, ha]] at hm
        rcases List.mem_cons.mp hm with h1 | h1
        · exact Or.inl (h1 ▸ List.mem_cons_self _ _)
        · rcases ih (b :: r) (by simp at hs ⊢; omega) h1 with h2 | h2
          · exact Or.inl (List.mem_cons_of_mem _ h2)
          · exact Or.inr h2

/-- Characters of the CRLF rewrite output come from the input or are line
feeds. -/
theorem mem_crlfGo {c : Char} {s : List Char} (h : c ∈ crlfGo s) : c ∈ s ∨ c = '\n' :=
  mem_crlfGo_aux s.length s le_rfl h

/-- Characters of the collapse output come from the input or are line feeds
(length-bounded induction). -/
theorem mem_nlGo_aux : ∀ (n : Nat) (s : List Char), s.length ≤ n → ∀ (skip : Bool) {c : Char},
    c ∈ nlGo skip s → c ∈ s ∨ c = '\n' := by
  intro n
  induction n with
  | zero =>
    intro s hs skip c hm
    cases s with
    | nil => cases skip <;> simp [nlGo] at hm
    | cons a rest => simp at hs
  | succ n ih =>
    intro s hs skip c hm
    rcases s with _ | ⟨a, rest⟩
    · cases skip <;> simp [nlGo] at hm
    cases skip
    · by_cases ha : a = '\n'
      · subst ha
        rcases rest with _ | ⟨b, r2⟩
        · rw [show nlGo false ['\n'] = ['\n'] from by simp [nlGo]] at hm
          exact Or.inl hm
        by_cases hb : b = '\n'
        · subst hb
          rcases r2 with _ | ⟨e, r3⟩
          · rw [show nlGo false ['\n', '\n'] = ['\n', '\n'] from by simp [nlGo]] at hm
            exact Or.inl hm
          by_cases he : e = '\n'
          · subst he
            rw [show nlGo false ('\n' :: '\n' :: '\n' :: r3) = '\n' :: '\n' :: nlGo true r3
              from by simp [nlGo]] at hm
            rcases List.mem_cons.mp hm with h1 | h1
            · exact Or.inr h1
            rcases List.mem_cons.mp h1 with h2 | h2
            · exact Or.inr h2
            rcases ih r3 (by simp at hs; omega) true h2 with h3 | h3
            · exact Or.inl (List.mem_cons_of_mem _ (List.mem_cons_of_mem _
                (List.mem_cons_of_mem _ h3)))
            · exact Or.inr h3
          · rw [show nlGo false ('\n' :: '\n' :: e :: r3) = '\n' :: nlGo false ('\n' :: e :: r3)
              from by simp [nlGo, he]] at hm
            rcases List.mem_cons.mp hm with h1 | h1
            · exact Or.inr h1
            rcases ih ('\n' :: e :: r3) (by simp at hs ⊢; omega) false h1 with h2 | h2
            · exact Or.inl (List.mem_cons_of_mem _ h2)
            · exact Or.inr h2
        · rw [show nlGo false ('\n' :: b :: r2) = '\n' :: nlGo false (b :: r2)
            from by simp [nlGo, hb]] at hm
          rcases List.mem_cons.mp hm with h1 | h1
          · exact Or.inr h1
          rcases ih (b :: r2) (by simp at hs ⊢; omega) false h1 with h2 | h2
          · exact Or.inl (List.mem_cons_of_mem _ h2)
          · exact Or.inr h2
      · rw [show nlGo false (a :: rest) = a :: nlGo false rest from by simp [nlGo, ha]] at hm
        rcases List.mem_cons.mp hm with h1 | h1
        · exact Or.inl (h1 ▸ List.mem_cons_self _ _)
        rcases ih rest (by simp at hs; omega) false h1 with h2 | h2
        · exact Or.inl (List.mem_cons_of_mem _ h2)
        · exact Or.inr h2
    · by_cases ha : a = '\n'
      · subst ha
        rw [show nlGo true ('\n' :: rest) = nlGo true rest from by simp [nlGo]] at hm
        rcases ih rest (by simp at hs; omega) true hm with h2 | h2
        · exact Or.inl (List.mem_cons_of_mem _ h2)
        · exact Or.inr h2
      · rw [show nlGo true (a :: rest) = a :: nlGo false rest from by simp [nlGo, ha]] at hm
        rcases List.mem_cons.mp hm with h1 | h1
        · exact Or.inl (h1 ▸ List.mem_cons_self _ _)
        rcases ih rest (by simp at hs; omega) false h1 with h2 | h2
        · exact Or.inl (List.mem_cons_of_mem _ h2)
        · exact Or.inr h2

/-- Characters of the collapse output come from the input or are line
feeds. -/
theorem mem_nlGo {skip : Bool} {c : Char} {s : List Char} (h : c ∈ nlGo skip s) :
    c ∈ s ∨ c = '\n' :=
  mem_nlGo_aux s.length s le_rfl skip h

/-- Characters of the blank-line collapse come from the input or are line
feeds. -/
theorem mem_blank {c : Char} {s : List Char} (h : c ∈ blankLineClean s) :
    c ∈ s ∨ c = '\n' := by
  unfold blankLineClean at h
  rcases mem_nlGo h with h1 | h1
  · rcases List.mem_map.mp h1 with ⟨d, hd, hfix⟩
    by_cases hdr : d = '\r'
    · subst hdr
      simp at hfix
      exact Or.inr hfix.symm
    · rw [if_neg (by simpa using hdr)] at hfix
      subst hfix
      rcases mem_crlfGo hd with h2 | h2
      · exact Or.inl h2
      · exact Or.inr h2
  · exact Or.inr h1

/-- The blank-line collapse output contains no carriage return. -/
theorem blank_no_cr (s : List Char) : '\r' ∉ blankLineClean s := by
  intro hmem
  unfold blankLineClean at hmem
  rcases mem_nlGo hmem with h | h
  · rcases List.mem_map.mp h with ⟨d, hd, hfix⟩
    by_cases hdr : d = '\r'
    · subst hdr
      simp at hfix
    · rw [if_neg (by simpa using hdr)] at hfix
      exact hdr hfix
  · exact absurd h (by decide)

/-- The blank-line collapse output has no triple line feed. -/
theorem blank_noTriple (s : List Char) : noTriple (blankLineClean s) = true := by
  unfold blankLineClean
  exact noTriple_nlGo _ _ le_rfl false

/-- The blank-line collapse is idempotent. -/
theorem blank_idem (s : List Char) : blankLineClean (blankLineClean s) = blankLineClean s := by
  have hcr := blank_no_cr s
  have hnt := blank_noTriple s
  conv_lhs => rw [blankLineClean]
  rw [crlfGo_id _ hcr]
  rw [map_id_of_eq _ fun c hc => by
    have hcne : c ≠ '\r' := fun he => hcr (he ▸ hc)
    simp [hcne]]
  exact nlGo_id _ hnt

/-! ### The tag rewrites are the identity on bracket-free text -/

/-- If whitespace leads to an open bracket, the list contains one. -/
theorem wsThenLt_mem : ∀ {s : List Char}, wsThenLt s = true → '<' ∈ s := by
  intro s
  induction s with
  | nil => simp [wsThenLt]
  | cons c rest ih =>
    intro h
    rcases Bool.or_eq_true _ _ ▸ h with h1 | h1
    · exact (beq_iff_eq.mp h1) ▸ List.mem_cons_self _ _
    · exact List.mem_cons_of_mem _ (ih (Bool.and_eq_true _ _ ▸ h1).2)

/-- If nonempty whitespace leads to an open bracket, the list contains
one. -/
theorem wsPlusLt_mem : ∀ {s : List Char}, wsPlusLt s = true → '<' ∈ s := by
  intro s
  cases s with
  | nil => simp [wsPlusLt]
  | cons c rest =>
    intro h
    exact List.mem_cons_of_mem _ (wsThenLt_mem (Bool.and_eq_true _ _ ▸ h).2)

/-- The inter-tag whitespace removal is the identity on bracket-free text. -/
theorem tagWsGo_id : ∀ s : List Char, '<' ∉ s → tagWsGo false s = s := by
  intro s
  induction s with
  | nil => intro _; rfl
  | cons c rest ih =>
    intro h
    have hrest : '<' ∉ rest := fun hm => h (List.mem_cons_of_mem _ hm)
    have hcond : (c == '>' && wsPlusLt rest) = false := by
      cases hw : wsPlusLt rest
      · simp
      · exact absurd (wsPlusLt_mem hw) hrest
    rw [show tagWsGo false (c :: rest) = c :: tagWsGo false rest from by simp [tagWsGo, hcond]]
    rw [ih hrest]

/-- A br unit needs an opening bracket. -/
theorem brUnit_none : ∀ s : List Char, '<' ∉ s → brUnit s = none := by
  intro s h
  rcases s with _ | ⟨a, _ | ⟨b, _ | ⟨r, rest⟩⟩⟩
  · rfl
  · have ha : a ≠ '<' := fun he => h (he ▸ List.mem_cons_self _ _)
    simp [brUnit, ha]
  · have ha : a ≠ '<' := fun he => h (he ▸ List.mem_cons_self _ _)
    simp [brUnit, ha]
  · have ha : a ≠ '<' := fun he => h (he ▸ List.mem_cons_self _ _)
    simp [brUnit, ha]

/-- The br-run collapse is the identity on bracket-free text. -/
theorem brGo_id : ∀ s : List Char, '<' ∉ s → brGo 0 s = s := by
  intro s
  induction s with
  | nil => intro _; rfl
  | cons c rest ih =>
    intro h
    have hnone : brUnit (c :: rest) = none := brUnit_none _ h
    rw [show brGo 0 (c :: rest) = c :: brGo 0 rest from by simp [brGo, hnone]]
    rw [ih fun hm => h (List.mem_cons_of_mem _ hm)]

/-- The paragraph-break literal needs an opening bracket. -/
theorem isPBrP_false : ∀ s : List Char, '<' ∉ s → isPBrP s = false := by
  intro s h
  cases s with
  | nil => rfl
  | cons a t =>
    have ha : a ≠ '<' := fun he => h (he ▸ List.mem_cons_self _ _)
    simp [isPBrP, ha]

/-- The paragraph-break rewrite is the identity on bracket-free text. -/
theorem pbrGo_id : ∀ s : List Char, '<' ∉ s → pbrGo 0 s = s := by
  intro s
  induction s with
  | nil => intro _; rfl
  | cons c rest ih =>
    intro h
    have hfalse : isPBrP (c :: rest) = false := isPBrP_false _ h
    rw [show pbrGo 0 (c :: rest) = c :: pbrGo 0 rest from by simp [pbrGo, hfalse]]
    rw [ih fun hm => h (List.mem_cons_of_mem _ hm)]

/-- An empty-paragraph unit needs an opening bracket. -/
theorem emptyParaLen_none : ∀ s : List Char, '<' ∉ s → emptyParaLen s = none := by
  intro s h
  rcases s with _ | ⟨a, _ | ⟨b, _ | ⟨r, rest⟩⟩⟩
  · rfl
  · have ha : a ≠ '<' := fun he => h (he ▸ List.mem_cons_self _ _)
    simp [emptyParaLen, ha]
  · have ha : a ≠ '<' := fun he => h (he ▸ List.mem_cons_self _ _)
    simp [emptyParaLen, ha]
  · have ha : a ≠ '<' := fun he => h (he ▸ List.mem_cons_self _ _)
    simp [emptyParaLen, ha]

/-- The empty-paragraph deletion is the identity on bracket-free text. -/
theorem delPGo_id : ∀ s : List Char, '<' ∉ s → delPGo 0 s = s := by
  intro s
  induction s with
  | nil => intro _; rfl
  | cons c rest ih =>
    intro h
    have hnone : emptyParaLen (c :: rest) = none := emptyParaLen_none _ h
    rw [show delPGo 0 (c :: rest) = c :: delPGo 0 rest from by simp [delPGo, hnone]]
    rw [ih fun hm => h (List.mem_cons_of_mem _ hm)]

/-- The empty-paragraph-run collapse is the identity on bracket-free text. -/
theorem ppGo_id : ∀ s : List Char, '<' ∉ s → ppGo 0 s = s := by
  intro s
  induction s with
  | nil => intro _; rfl
  | cons c rest ih =>
    intro h
    have hnone : emptyParaLen (c :: rest) = none := emptyParaLen_none _ h
    rw [show ppGo 0 (c :: rest) = c :: ppGo 0 rest from by simp [ppGo, hnone]]
    rw [ih fun hm => h (List.mem_cons_of_mem _ hm)]

/-- On bracket-free markup the Structural Cleaner reduces to the blank-line
collapse (or the identity with the flag off). -/
theorem cleanMarkup_of_no_lt (b : Bool) (t : List Char) (ht : '<' ∉ t) :
    cleanMarkup b t = (if b then blankLineClean t else t) := by
  have hb1 : '<' ∉ (if b then blankLineClean t else t) := by
    cases b
    · simpa using ht
    · simp only [if_true]
      intro hm
      rcases mem_blank hm with h1 | h1
      · exact ht h1
      · exact absurd h1 (by decide)
  simp only [cleanMarkup]
  rw [tagWsGo_id _ hb1, brGo_id _ hb1, pbrGo_id _ hb1, delPGo_id _ hb1, ppGo_id _ hb1]

/-- C4 counterexample: the Structural Cleaner is not idempotent; deleting an
empty paragraph can splice the surrounding markup into a fresh
paragraph-break pattern that only a second pass rewrites. -/
theorem C4_counterexample :
    cleanMarkup true (cleanMarkup true "<p><p></p><br></p>".toList)
      ≠ cleanMarkup true "<p><p></p><br></p>".toList := by
  decide

/-- C4 (amended): the Structural Cleaner is idempotent on every input
containing no opening angle bracket (where only the line-terminator rules
can fire), for both settings of collapseBlankLines; on arbitrary markup a
second application can differ, because deleting an empty paragraph can
create a new paragraph-break match. -/
theorem C4_cleaner_idempotent_on_plain (b : Bool) (s : List Char)
    (h : s.contains '<' = false) :
    cleanMarkup b (cleanMarkup b s) = cleanMarkup b s := by
  have hlt : '<' ∉ s := by simpa using h
  rw [cleanMarkup_of_no_lt b s hlt]
  cases b
  · simp only [if_neg (by decide : ¬(false = true))]
    rw [cleanMarkup_of_no_lt false s hlt]
    simp
  · simp only [if_true]
    have hlt2 : '<' ∉ blankLineClean s := by
      intro hm
      rcases mem_blank hm with h1 | h1
      · exact hlt h1
      · exact absurd h1 (by decide)
    rw [cleanMarkup_of_no_lt true _ hlt2]
    simp only [if_true]
    exact blank_idem s

/-- Witness for the amended C4 at a concrete bracket-free input. -/
theorem C4_witness :
    cleanMarkup true (cleanMarkup true "a\r\n\n\n\n\nb".toList)
      = cleanMarkup true "a\r\n\n\n\n\nb".toList :=
  C4_cleaner_idempotent_on_plain true _ (by decide)

/-! ### The initial NFC step and the failure of full idempotence (claim C10) -/

/-- Modelled from the spec: the initial Unicode canonical composition (NFC)
step of sanitizeTextContent (section 4.1, step 1) is the runtime string
normalization, whose code is not part of this repository.  It is modelled by
the canonical composition pass restricted to an embedded excerpt of the
Unicode composition data: the pairs of a Latin base letter with the
combining acute accent U+0301.  On this excerpt every combining mark has
combining class 230, so composing each character with its immediate
predecessor coincides with the full algorithm (a mark composes with the
last starter unless any character intervenes), and characters outside the
excerpt are left unchanged, as NFC leaves already-normalized text
unchanged. -/
def composePair (b m : Char) : Option Char :=
  if m.val == 0x0301 then
    if b == 'a' then some (Char.ofNat 0xE1)
    else if b == 'e' then some (Char.ofNat 0xE9)
    else if b == 'o' then some (Char.ofNat 0xF3)
    else none
  else none

/-- The canonical composition scan: compose each character with its
predecessor when the excerpt table allows it. -/
def nfcGo (b : Char) : List Char → List Char
  | [] => [b]
  | m :: rest =>
    match composePair b m with
    | some comp => nfcGo comp rest
    | none => b :: nfcGo m rest

/-- Canonical composition of a whole text. -/
def nfcCompose : List Char → List Char
  | [] => []
  | b :: rest => nfcGo b rest

/-- The full sanitizeTextContent pipeline: the initial NFC step followed by
the flag-gated filters and the unconditional rewrites. -/
def sanitizeTextContentFull (s : List Char) (o : Options) : List Char :=
  sanitizeTextContent (nfcCompose s) o

/-- C10 counterexample: the full normalizer is not idempotent, even with
expandLatinAbbrev disabled.  On e, ZWNJ (U+200C), combining acute (U+0301)
with removeZeroWidth on, the input is NFC-stable (the ZWNJ starter blocks
composition), the first pass deletes the ZWNJ and outputs the decomposed
pair e, U+0301, and the second pass's NFC step composes that pair to
U+00E9, a different string. -/
theorem C10_counterexample :
    sanitizeTextContentFull
        (sanitizeTextContentFull ['e', Char.ofNat 0x200C, Char.ofNat 0x0301]
          ⟨true, false, false, false, false⟩)
        ⟨true, false, false, false, false⟩
      ≠ sanitizeTextContentFull ['e', Char.ofNat 0x200C, Char.ofNat 0x0301]
          ⟨true, false, false, false, false⟩ := by
  decide

example :
    sanitizeTextContentFull ['e', Char.ofNat 0x200C, Char.ofNat 0x0301]
      ⟨true, false, false, false, false⟩ = ['e', Char.ofNat 0x0301] := by decide

example :
    sanitizeTextContentFull ['e', Char.ofNat 0x0301]
      ⟨true, false, false, false, false⟩ = [Char.ofNat 0xE9] := by decide

end Sanitizer
